import Mathlib

/-!
Verification development for the retained-state widget-graph core
(`src/graph/mod.rs`, `src/render.rs`).

The shallow embedding below translates the Rust source into Lean:

* `f64` scalars are modelled as `ℚ`; a (possibly-NaN) `f64` depth is
  `Option ℚ` with `none` playing the role of NaN, so that
  `partial_cmp` returning `None` (and the ensuing panic) is representable.
* petgraph's `Graph<Node, Edge, Directed>` is modelled as a list of nodes
  (position = `NodeIndex`) plus a list of edges.  petgraph iterates the
  incoming/outgoing edges of a node most-recently-added first, so new edges
  are consed onto the front of the edge list and per-node edge walks are
  list filters.
* operations that can panic return `Option`/`Res` with `none`/`panicked`
  for the panic.
* the type-erased `Box<Any>` state payload and the cached `Element` are
  modelled as `Option Unit`: no claim inspects their contents, only their
  presence.
-/

namespace Conrod

/-- A scrollbar's state: the fields of `widget::scroll` read by
`Graph::scroll_offset` (`offset`, `max_offset`, `total_length`).  The
`widget::scroll` module itself is not part of the core sources; the field
set is taken from its uses in `graph/mod.rs`. -/
structure ScrollBar where
  offset : ℚ
  max_offset : ℚ
  total_length : ℚ
deriving DecidableEq, Repr

/-- Scroll related state (only `Some` if the widget is scrollable). -/
structure ScrollState where
  maybe_vertical : Option ScrollBar
  maybe_horizontal : Option ScrollBar
deriving DecidableEq, Repr

/-- Floating-widget metadata; `time_last_clicked` is the monotonically
increasing "last interacted" timestamp used when sorting the floating
deque. -/
structure Floating where
  time_last_clicked : Nat
deriving DecidableEq, Repr

/-- The area in which child widgets are placed (`widget::KidArea`): the
fields read by the core are its centred position and dimensions. -/
structure KidArea where
  xy : ℚ × ℚ
  dim : ℚ × ℚ
deriving DecidableEq, Repr

/-- A container for caching a Widget's state inside a Graph Node
(`Container` in `graph/mod.rs`).  `depth` is an `f64`; `none` stands for
NaN.  `maybe_state`/`maybe_element` record only the presence of the
type-erased payload / cached element. -/
structure Container where
  maybe_state : Option Unit
  kind : String
  dim : ℚ × ℚ
  xy : ℚ × ℚ
  depth : Option ℚ
  kid_area : KidArea
  maybe_floating : Option Floating
  maybe_scrolling : Option ScrollState
  element_has_changed : Bool
  maybe_element : Option Unit
  is_updated : Bool
  was_previously_updated : Bool
deriving DecidableEq, Repr

/-- A node within the UI Graph. -/
inductive Node where
  | Root : Node
  | Widget : Container → Node
  | Placeholder : Node
deriving DecidableEq, Repr

/-- An edge between nodes within the UI Graph. -/
inductive EdgeKind where
  | RelativePosition : EdgeKind
  | Child : EdgeKind
deriving DecidableEq, Repr

/-- A directed edge of the petgraph: source node index, target node index
and the edge weight. -/
structure EdgeT where
  src : Nat
  tgt : Nat
  kind : EdgeKind
deriving DecidableEq, Repr

/-- The widget graph state: nodes addressed by position, the edge list
(most recently added first, matching petgraph's per-node walk order), the
`widget::Id → NodeIndex` index map, and the root node index. -/
structure Graph where
  nodes : List Node
  edges : List EdgeT
  index_map : List (Nat × Nat)
  root : Nat
deriving DecidableEq, Repr

/-- Parts of the graph that are significant when visiting and sorting by
depth. -/
inductive Visitable where
  | Widget : Nat → Visitable
  | Scrollbar : Nat → Visitable
deriving DecidableEq, Repr

/-- A `GraphIndex`: either an externally issued `widget::Id` or a raw
`NodeIndex`. -/
inductive GIdx where
  | widgetId : Nat → GIdx
  | nodeIdx : Nat → GIdx
deriving DecidableEq, Repr

/-- Modelled from the spec: the Identifier Map is a bidirectional mapping
between widget identifiers and graph node handles (the `index_map` module
is not among the core sources).  `to_node_index` resolves a `GraphIndex`
to a `NodeIndex`: a raw node index resolves to itself, a widget id is
looked up in the map. -/
def toNodeIndex (m : List (Nat × Nat)) : GIdx → Option Nat
  | GIdx.nodeIdx n => some n
  | GIdx.widgetId i => (m.find? (fun p => p.1 == i)).map (fun p => p.2)

/-- Modelled from the spec: the reverse direction of the Identifier Map
(`to_widget_id`). -/
def toWidgetId (m : List (Nat × Nat)) : GIdx → Option Nat
  | GIdx.widgetId i => some i
  | GIdx.nodeIdx n => (m.find? (fun p => p.2 == n)).map (fun p => p.1)

/-- The boolean edge-step relation of the petgraph: is there an edge from
`a` to `b`? -/
def stepB (edges : List EdgeT) (a b : Nat) : Bool :=
  edges.any (fun e => e.src == a && e.tgt == b)

/-- Bounded reachability: is there a directed path from `a` to `b` of at
most `fuel` edges? -/
def reachB (edges : List EdgeT) : Nat → Nat → Nat → Bool
  | 0, a, b => a == b
  | fuel + 1, a, b =>
    a == b || edges.any (fun e => e.src == a && reachB edges fuel e.tgt b)

/-- `pg::algo::is_cyclic_directed`, modelled extensionally: the graph has a
directed cycle iff some edge's target reaches its source (a path in an
`n`-edge graph can always be shortened to use at most `n` edges, so the
fuel `edges.length` is sufficient; this is proved below). -/
def cyclicB (g : Graph) : Bool :=
  g.edges.any (fun e => reachB g.edges g.edges.length e.tgt e.src)

/-- The edge predicate used by `set_edge` when walking node `b`'s incoming
edges for one of kind `k`. -/
def edgePred (b : Nat) (k : EdgeKind) (e : EdgeT) : Bool :=
  e.tgt == b && e.kind == k

/-- The tail of `set_edge`: add the edge `a -> b`, then check for a cycle;
if a cycle would result, remove the just-added edge again (leaving the
graph it was handed).  `petgraph::Graph::add_edge` panics (`none`) if
either endpoint is not a valid node index. -/
def addEdgeChecked (g : Graph) (a b : Nat) (k : EdgeKind) : Option Graph :=
  if a < g.nodes.length ∧ b < g.nodes.length then
    if cyclicB { g with edges := ⟨a, b, k⟩ :: g.edges } then some g
    else some { g with edges := ⟨a, b, k⟩ :: g.edges }
  else none

/-- `set_edge`: make `a -> b` the only edge of its variant into `b`.  The
walk over `b`'s incoming edges stops at the first edge of kind `k`: if it
already comes from `a` the graph is kept as is, otherwise that edge is
removed and the new edge is added (subject to the cycle check).  Walking
the edges of an out-of-range node index panics (`none`). -/
def set_edge (g : Graph) (a b : Nat) (k : EdgeKind) : Option Graph :=
  if b < g.nodes.length then
    match g.edges.find? (edgePred b k) with
    | some e =>
      if e.src == a then some g
      else addEdgeChecked { g with edges := g.edges.eraseP (edgePred b k) } a b k
    | none => addEdgeChecked g a b k
  else none

/-- The number of incoming edges of kind `k` at node `n`. -/
def incomingCount (g : Graph) (n : Nat) (k : EdgeKind) : Nat :=
  g.edges.countP (edgePred n k)

/-- `maybe_incoming_child_edge`: the first incoming `Child` edge of a node
(there is at most one in any reachable graph), returning the parent. -/
def maybeIncomingChildEdge (g : Graph) (idx : Nat) : Option Nat :=
  (g.edges.find? (edgePred idx EdgeKind.Child)).map (fun e => e.src)

/-- `maybe_incoming_relative_position_edge`: the first incoming
`RelativePosition` edge of a node, returning its source. -/
def maybeIncomingRelEdge (g : Graph) (idx : Nat) : Option Nat :=
  (g.edges.find? (edgePred idx EdgeKind.RelativePosition)).map (fun e => e.src)

/-- `Graph::with_capacity`: a fresh graph holding only the root node. -/
def withCapacity : Graph :=
  { nodes := [Node.Root], edges := [], index_map := [], root := 0 }

/-- `Graph::add_placeholder`: append a placeholder node. -/
def addPlaceholder (g : Graph) : Graph :=
  { g with nodes := g.nodes ++ [Node.Placeholder] }

/-- `Graph::get_widget` (and the read-only part of `get_widget_mut`).
The outer `Option` is the panic state: indexing an out-of-range
`NodeIndex` panics inside petgraph's `Index` op, and a resolved `Root`
node hits the `_ => unreachable!()` arm (both `none`).  Otherwise the
inner `Option` is the source's result: `some c` for a `Widget`, `none`
for a `Placeholder` or an identifier the map cannot resolve. -/
def getWidget (g : Graph) (idx : GIdx) : Option (Option Container) :=
  match toNodeIndex g.index_map idx with
  | none => some none
  | some n =>
    match g.nodes.get? n with
    | none => none
    | some (Node.Widget c) => some (some c)
    | some Node.Placeholder => some none
    | some Node.Root => none

/-- `Graph::set_parent_for_widget`: resolve the child and the (optional)
parent — creating a placeholder node plus an index-map entry when the
parent id is not yet known, and defaulting to the root when no parent is
given — then set the single `Child` edge from parent to child.  The
`expect` calls on failed resolutions panic (`none`). -/
def setParentForWidget (g : Graph) (idx : GIdx) (maybeParent : Option GIdx) :
    Option Graph :=
  match toNodeIndex g.index_map idx with
  | none => none
  | some nodeIdx =>
    match maybeParent with
    | none => set_edge g g.root nodeIdx EdgeKind.Child
    | some parentIdx =>
      match toNodeIndex g.index_map parentIdx with
      | some parentNodeIdx => set_edge g parentNodeIdx nodeIdx EdgeKind.Child
      | none =>
        match toWidgetId g.index_map parentIdx with
        | none => none
        | some parentWidgetId =>
          set_edge
            { g with
              nodes := g.nodes ++ [Node.Placeholder]
              index_map := (parentWidgetId, g.nodes.length) :: g.index_map }
            g.nodes.length nodeIdx EdgeKind.Child

/-- `Graph::add_widget`: append a `Widget` node, register its id in the
index map if one is given, and set its parent edge. -/
def addWidget (g : Graph) (container : Container) (maybeWidgetId : Option Nat)
    (maybeParentIdx : Option GIdx) : Option Graph :=
  setParentForWidget
    { g with
      nodes := g.nodes ++ [Node.Widget container]
      index_map :=
        match maybeWidgetId with
        | some id => (id, g.nodes.length) :: g.index_map
        | none => g.index_map }
    (GIdx.nodeIdx g.nodes.length) maybeParentIdx

/-- `Graph::set_relative_position_edge`: resolve both ends (panicking on
failure) and set the single `RelativePosition` edge from `a` to `b`. -/
def setRelativePositionEdge (g : Graph) (a b : GIdx) : Option Graph :=
  match toNodeIndex g.index_map a, toNodeIndex g.index_map b with
  | some aIdx, some bIdx => set_edge g aIdx bIdx EdgeKind.RelativePosition
  | _, _ => none

/-- `Graph::remove_incoming_relative_position_edge`: drop the first (and
only) incoming `RelativePosition` edge of the node, if any.  Panics
(`none`) when the index cannot be resolved or is out of range. -/
def removeIncomingRelEdge (g : Graph) (idx : GIdx) : Option Graph :=
  match toNodeIndex g.index_map idx with
  | none => none
  | some nodeIdx =>
    if nodeIdx < g.nodes.length then
      some { g with
              edges := g.edges.eraseP (edgePred nodeIdx EdgeKind.RelativePosition) }
    else none

/-- The `widget::PreUpdateCache` data handed to `Graph::pre_update_cache`.
(`drag_state` carries no information any claim inspects and is omitted;
it is overwritten wholesale exactly like `xy`/`dim`.) -/
structure PreUpdateCache where
  kind : String
  idx : GIdx
  maybe_parent_idx : Option GIdx
  maybe_positioned_relatively_idx : Option GIdx
  xy : ℚ × ℚ
  dim : ℚ × ℚ
  depth : Option ℚ
  kid_area : KidArea
  maybe_floating : Option Floating
  maybe_scrolling : Option ScrollState
deriving DecidableEq, Repr

/-- The fresh `Container` built by `pre_update_cache`'s `new_container`
closure. -/
def newContainer (w : PreUpdateCache) : Container :=
  { maybe_state := none
    kind := w.kind
    xy := w.xy
    dim := w.dim
    depth := w.depth
    kid_area := w.kid_area
    maybe_floating := w.maybe_floating
    maybe_scrolling := w.maybe_scrolling
    maybe_element := none
    element_has_changed := false
    is_updated := true
    was_previously_updated := false }

/-- In-place update of an existing container by `pre_update_cache` (the
`Node::Widget` branch): transient fields are overwritten, the cached
state, element and dirty flags are kept, and `is_updated` is set. -/
def updateContainer (c : Container) (w : PreUpdateCache) : Container :=
  { c with
    kind := w.kind
    xy := w.xy
    dim := w.dim
    depth := w.depth
    kid_area := w.kid_area
    maybe_floating := w.maybe_floating
    maybe_scrolling := w.maybe_scrolling
    is_updated := true }

/-- The update of the resolved node in `pre_update_cache`: replace a
placeholder by a fresh widget container, or update the existing container
in place — panicking (`none`) when the cached kind conflicts with the
incoming kind (unless the cached kind is `"EMPTY"`). -/
def preUpdateNodeAt (g1 : Graph) (nodeIdx : Nat) (w : PreUpdateCache) :
    Option Graph :=
  match g1.nodes.get? nodeIdx with
  | some Node.Placeholder =>
    some { g1 with nodes := g1.nodes.set nodeIdx (Node.Widget (newContainer w)) }
  | some (Node.Widget c) =>
    if c.kind ≠ w.kind ∧ c.kind ≠ "EMPTY" then none
    else some { g1 with nodes := g1.nodes.set nodeIdx (Node.Widget (updateContainer c w)) }
  | _ => none

/-- `Graph::pre_update_cache`, first half: resolve-or-create the node and
set its parent edge.  Returns `none` on any panic, in particular the
kind-mismatch panic. -/
def preUpdateCacheNode (g : Graph) (w : PreUpdateCache) : Option Graph :=
  match toNodeIndex g.index_map w.idx with
  | some nodeIdx =>
    match setParentForWidget g w.idx w.maybe_parent_idx with
    | none => none
    | some g1 => preUpdateNodeAt g1 nodeIdx w
  | none =>
    match toWidgetId g.index_map w.idx with
    | none => none
    | some id => addWidget g (newContainer w) (some id) w.maybe_parent_idx

/-- `Graph::pre_update_cache`: cache the pre-update widget data, then
either set the `RelativePosition` edge or remove any stale one. -/
def preUpdateCache (g : Graph) (w : PreUpdateCache) : Option Graph :=
  match preUpdateCacheNode g w with
  | none => none
  | some g2 =>
    match w.maybe_positioned_relatively_idx with
    | some relIdx => setRelativePositionEdge g2 relIdx w.idx
    | none => removeIncomingRelEdge g2 w.idx

/-- The `widget::PostUpdateCache` data handed to `Graph::post_update_cache`
(state/style payload presence and the optional fresh element). -/
structure PostUpdateCache where
  idx : GIdx
  maybe_element : Option Unit
deriving DecidableEq, Repr

/-- `Graph::post_update_cache`: if `get_widget_mut` finds a `Widget`
container, store the new element (marking `element_has_changed`) when one
was produced and store the type-erased state; if it returns `None` (an
unresolvable identifier or a `Placeholder`) do nothing.  `none` models
`get_widget_mut`'s panics: petgraph's index op on an out-of-range
`NodeIndex`, and `unreachable!()` on the `Root` node. -/
def postUpdateCache (g : Graph) (w : PostUpdateCache) : Option Graph :=
  match toNodeIndex g.index_map w.idx with
  | none => some g
  | some nodeIdx =>
    match g.nodes.get? nodeIdx with
    | none => none
    | some Node.Root => none
    | some Node.Placeholder => some g
    | some (Node.Widget c) =>
      let c1 :=
        if w.maybe_element.isSome then
          { c with maybe_element := w.maybe_element, element_has_changed := true }
        else c
      some { g with
        nodes := g.nodes.set nodeIdx
          (Node.Widget { c1 with maybe_state := some () }) }

/-- The graph states reachable by sequences of the public mutating
operations, starting from a fresh graph. -/
inductive Reachable : Graph → Prop where
  | init : Reachable withCapacity
  | add_placeholder {g : Graph} : Reachable g → Reachable (addPlaceholder g)
  | add_widget {g g' : Graph} {c : Container} {mid : Option Nat} {mp : Option GIdx} :
      Reachable g → addWidget g c mid mp = some g' → Reachable g'
  | pre_update {g g' : Graph} {w : PreUpdateCache} :
      Reachable g → preUpdateCache g w = some g' → Reachable g'
  | post_update {g g' : Graph} {w : PostUpdateCache} :
      Reachable g → postUpdateCache g w = some g' → Reachable g'

/-- The inner loop of `Graph::scroll_offset`: walk the chain of incoming
`RelativePosition` edges from the current node, returning `true` as soon
as a link's parent equals `parent_idx` (the offset was already absorbed by
the relative-position target), `false` when the chain ends.  `none` is
fuel exhaustion (the source relies on the graph being acyclic). -/
def relMatchesParent (g : Graph) : Nat → Nat → Nat → Option Bool
  | 0, _, _ => none
  | fuel + 1, current, parentIdx =>
    match maybeIncomingRelEdge g current with
    | some node =>
      match maybeIncomingChildEdge g node with
      | some parentNode =>
        if parentNode == parentIdx then some true
        else relMatchesParent g fuel node parentIdx
      | none => relMatchesParent g fuel node parentIdx
    | none => some false

/-- One scrollable ancestor's contribution in `Graph::scroll_offset`: the
vertical bar adds `offset / max_offset * (total_length - kid_height)` to
`y`, the horizontal bar subtracts the analogous amount from `x`. -/
def scrollStep (c : Container) (offset : ℚ × ℚ) : ℚ × ℚ :=
  match c.maybe_scrolling with
  | none => offset
  | some s =>
    let o1 :=
      match s.maybe_vertical with
      | some bar =>
        (offset.1,
         offset.2 + bar.offset / bar.max_offset * (bar.total_length - c.kid_area.dim.2))
      | none => offset
    match s.maybe_horizontal with
    | some bar =>
      (o1.1 - bar.offset / bar.max_offset * (bar.total_length - c.kid_area.dim.1), o1.2)
    | none => o1

/-- The outer `child_edge_traversal` loop of `Graph::scroll_offset`. -/
def scrollLoop (g : Graph) : Nat → Nat → (ℚ × ℚ) → Option (ℚ × ℚ)
  | 0, _, _ => none
  | fuel + 1, idx, offset =>
    match maybeIncomingChildEdge g idx with
    | none => some offset
    | some parentIdx =>
      match relMatchesParent g (fuel + 1) idx parentIdx with
      | none => none
      | some true => some offset
      | some false =>
        let offset' :=
          match g.nodes.get? parentIdx with
          | some (Node.Widget c) => scrollStep c offset
          | _ => offset
        scrollLoop g fuel parentIdx offset'

/-- `Graph::scroll_offset`: the total scroll offset of a widget; an
identifier that is not yet present in the graph yields the zero offset. -/
def scrollOffset (g : Graph) (idx : GIdx) (fuel : Nat) : Option (ℚ × ℚ) :=
  match toNodeIndex g.index_map idx with
  | none => some (0, 0)
  | some n => scrollLoop g fuel n (0, 0)

/-- `f64::partial_cmp` on the NaN-extended rationals: `none` (NaN) on
either side makes the comparison undefined. -/
def pcmpQ (x y : Option ℚ) : Option Ordering :=
  match x, y with
  | some a, some b => some (compare a b)
  | _, _ => none

/-- The child comparator of `visit_by_depth` (the `sort_by` closure):
a first argument matching the mouse- or keyboard-capturing node sorts
`Greater`; two widgets otherwise compare by `b.depth.partial_cmp(&a.depth)`
(descending depth), panicking (`none`) when a depth is NaN; any other
node combination is `Equal`.  Indexing an out-of-range node panics. -/
def childCmp (g : Graph) (mc mk : Option Nat) (a b : Nat) : Option Ordering :=
  if mc == some a || mk == some a then some Ordering.gt
  else
    match g.nodes.get? a, g.nodes.get? b with
    | some (Node.Widget ca), some (Node.Widget cb) => pcmpQ cb.depth ca.depth
    | some _, some _ => some Ordering.eq
    | _, _ => none

/-- The floating-deque comparator of `update_depth_order`: two widgets
compare by ascending `time_last_clicked`, with the `expect("Not floating")`
panic (`none`) when a compared widget is not floating; non-widget pairs
are `Equal`; indexing an out-of-range node panics. -/
def floatCmp (g : Graph) (a b : Nat) : Option Ordering :=
  match g.nodes.get? a, g.nodes.get? b with
  | some (Node.Widget ca), some (Node.Widget cb) =>
    match ca.maybe_floating, cb.maybe_floating with
    | some fa, some fb => some (compare fa.time_last_clicked fb.time_last_clicked)
    | _, _ => none
  | some _, some _ => some Ordering.eq
  | _, _ => none

/-- Insert `x` into the reversed sorted run `rev` (last element first),
moving `x` left past each element it compares strictly `Less` than —
exactly the comparison pattern of the standard library's stable sort,
which sifts the element being inserted (the later element, passed as the
first comparator argument) leftwards through the sorted run.  A comparison
that panics aborts the sort (`none`). -/
def insertBack (cmp : Nat → Nat → Option Ordering) (x : Nat) :
    List Nat → Option (List Nat)
  | [] => some [x]
  | z :: zs =>
    match cmp x z with
    | none => none
    | some Ordering.lt => (insertBack cmp x zs).map (fun r => z :: r)
    | some _ => some (x :: z :: zs)

/-- The driver of the stable-sort model: fold the input into a reversed
sorted run. -/
def sortGo (cmp : Nat → Nat → Option Ordering) :
    List Nat → List Nat → Option (List Nat)
  | [], rev => some rev.reverse
  | x :: xs, rev =>
    match insertBack cmp x rev with
    | none => none
    | some rev' => sortGo cmp xs rev'

/-- `Vec::sort_by`, modelled as the standard library's stable
insertion-based sort (for a comparator that is a total preorder this
agrees with every stable sort; for the inconsistent captured-node
comparator it performs exactly the standard library's comparisons). -/
def sortRust (cmp : Nat → Nat → Option Ordering) (l : List Nat) :
    Option (List Nat) :=
  sortGo cmp l []

/-- `graph.neighbors_directed(idx, pg::Outgoing)`: all outgoing neighbor
nodes, most recently added edge first. -/
def neighborsOut (g : Graph) (idx : Nat) : List Nat :=
  (g.edges.filter (fun e => e.src == idx)).map (fun e => e.tgt)

/-- The result of a fuelled, possibly-panicking computation. -/
inductive Res (α : Type) where
  | ok : α → Res α
  | panicked : Res α
  | fuelOut : Res α
deriving DecidableEq, Repr

/-- The floating test performed on each child in `visit_by_depth`:
`some (is the widget floating?)` for a widget node, `none` otherwise. -/
def maybeIsFloatingB (g : Graph) (child : Nat) : Option Bool :=
  match g.nodes.get? child with
  | some (Node.Widget c) => some c.maybe_floating.isSome
  | _ => none

mutual

/-- `visit_by_depth`: push the node's entry if it is an updated widget
(stop at placeholders and stale widgets), sort the outgoing neighbors
with the capture/depth comparator, visit them in order — diverting
floating children into the floating deque — and finally push a
`Scrollbar` entry for a scrollable widget.  `panicked` models the Rust
panics (NaN depth, indexing an invalid node); `fuelOut` is exhaustion of
the recursion-depth fuel, a model artefact. -/
def visitByDepth (g : Graph) (mc mk : Option Nat) :
    Nat → Nat → List Visitable → List Nat → Res (List Visitable × List Nat)
  | 0, _, _, _ => Res.fuelOut
  | fuel + 1, idx, depthOrder, floating =>
    match g.nodes.get? idx with
    | none => Res.panicked
    | some Node.Placeholder => Res.ok (depthOrder, floating)
    | some (Node.Widget c) =>
      if c.is_updated then
        match sortRust (childCmp g mc mk) (neighborsOut g idx) with
        | none => Res.panicked
        | some kids =>
          match visitKids g mc mk fuel kids (depthOrder ++ [Visitable.Widget idx]) floating with
          | Res.ok (d2, f2) =>
            if c.maybe_scrolling.isSome then
              Res.ok (d2 ++ [Visitable.Scrollbar idx], f2)
            else Res.ok (d2, f2)
          | r => r
      else Res.ok (depthOrder, floating)
    | some Node.Root =>
      match sortRust (childCmp g mc mk) (neighborsOut g idx) with
      | none => Res.panicked
      | some kids => visitKids g mc mk fuel kids depthOrder floating

/-- The loop over the sorted children in `visit_by_depth`: a floating
widget child is appended to the floating deque, any other child is
visited recursively. -/
def visitKids (g : Graph) (mc mk : Option Nat) :
    Nat → List Nat → List Visitable → List Nat → Res (List Visitable × List Nat)
  | 0, _, _, _ => Res.fuelOut
  | _ + 1, [], depthOrder, floating => Res.ok (depthOrder, floating)
  | fuel + 1, child :: rest, depthOrder, floating =>
    match maybeIsFloatingB g child with
    | some true => visitKids g mc mk fuel rest depthOrder (floating ++ [child])
    | _ =>
      match visitByDepth g mc mk fuel child depthOrder floating with
      | Res.ok (d2, f2) => visitKids g mc mk fuel rest d2 f2
      | r => r

end

/-- The `while !floating_deque.is_empty()` loop of `update_depth_order`:
repeatedly remove the front of the deque and visit it (the visit may
append further floating widgets to the deque). -/
def drainFloats (g : Graph) (mc mk : Option Nat) :
    Nat → List Nat → List Visitable → Res (List Visitable)
  | 0, _, _ => Res.fuelOut
  | _ + 1, [], depthOrder => Res.ok depthOrder
  | fuel + 1, idx :: rest, depthOrder =>
    match visitByDepth g mc mk (fuel + 1) idx depthOrder rest with
    | Res.ok (d2, f2) => drainFloats g mc mk fuel f2 d2
    | Res.panicked => Res.panicked
    | Res.fuelOut => Res.fuelOut

/-- `update_depth_order`: clear the buffers, visit the tree from the root,
sort the collected floating widgets by ascending `time_last_clicked`, and
drain the deque. -/
def updateDepthOrder (g : Graph) (mc mk : Option Nat) (fuel : Nat) :
    Res (List Visitable) :=
  match visitByDepth g mc mk fuel g.root [] [] with
  | Res.ok (depthOrder, floats) =>
    match sortRust (floatCmp g) floats with
    | none => Res.panicked
    | some sortedFloats => drainFloats g mc mk fuel sortedFloats depthOrder
  | Res.panicked => Res.panicked
  | Res.fuelOut => Res.fuelOut

/-! ### Reachability and acyclicity: the boolean check agrees with the
mathematical notions -/

/-- The propositional edge-step relation. -/
def stepR (edges : List EdgeT) (a b : Nat) : Prop :=
  ∃ e ∈ edges, e.src = a ∧ e.tgt = b

/-- The edge list has a directed cycle. -/
def CyclicE (E : List EdgeT) : Prop :=
  ∃ n, Relation.TransGen (stepR E) n n

/-- The edge list is acyclic. -/
def AcyclicE (E : List EdgeT) : Prop :=
  ∀ n, ¬ Relation.TransGen (stepR E) n n

/-- The graph has a directed cycle. -/
def CyclicR (g : Graph) : Prop := CyclicE g.edges

/-- The graph is acyclic. -/
def AcyclicR (g : Graph) : Prop := AcyclicE g.edges

theorem stepR_mono {edges edges' : List EdgeT} (h : edges' ⊆ edges) {a b : Nat}
    (hs : stepR edges' a b) : stepR edges a b := by
  obtain ⟨e, he, h1, h2⟩ := hs
  exact ⟨e, h he, h1, h2⟩

theorem reachB_refl (edges : List EdgeT) (f a : Nat) : reachB edges f a a = true := by
  cases f <;> simp [reachB]

theorem reachB_sound {edges : List EdgeT} :
    ∀ {f a b : Nat}, reachB edges f a b = true →
      Relation.ReflTransGen (stepR edges) a b := by
  intro f
  induction f with
  | zero =>
    intro a b h
    simp only [reachB, beq_iff_eq] at h
    exact h ▸ Relation.ReflTransGen.refl
  | succ f ih =>
    intro a b h
    simp only [reachB, Bool.or_eq_true, beq_iff_eq, List.any_eq_true,
      Bool.and_eq_true] at h
    rcases h with h | ⟨e, he, h1, h2⟩
    · exact h ▸ Relation.ReflTransGen.refl
    · exact Relation.ReflTransGen.head ⟨e, he, h1, rfl⟩ (ih h2)

theorem chain_tgt_mem {edges : List EdgeT} :
    ∀ {l : List Nat} {a : Nat}, List.Chain (stepR edges) a l →
      ∀ y ∈ l, y ∈ edges.map EdgeT.tgt := by
  intro l
  induction l with
  | nil => intro a _ y hy; simp at hy
  | cons z t ih =>
    intro a h y hy
    rcases List.chain_cons.mp h with ⟨⟨e, he, _, h2⟩, ht⟩
    rcases List.mem_cons.mp hy with rfl | hy'
    · exact List.mem_map.mpr ⟨e, he, h2⟩
    · exact ih ht y hy'

theorem not_nodup_split {α : Type} {l : List α} (h : ¬ l.Nodup) :
    ∃ x l₁ l₂ l₃, l = l₁ ++ x :: (l₂ ++ x :: l₃) := by
  induction l with
  | nil => exact absurd List.nodup_nil h
  | cons y t ih =>
    by_cases hy : y ∈ t
    · obtain ⟨s, t', rfl⟩ := List.append_of_mem hy
      exact ⟨y, [], s, t', by simp⟩
    · have hnt : ¬ t.Nodup := fun hn => h (List.nodup_cons.mpr ⟨hy, hn⟩)
      obtain ⟨x, l₁, l₂, l₃, rfl⟩ := ih hnt
      exact ⟨x, y :: l₁, l₂, l₃, by simp⟩

theorem chain_reachB_of_short {edges : List EdgeT} :
    ∀ {l : List Nat} {f a b : Nat}, l.length ≤ f →
      List.Chain (stepR edges) a l →
      (a :: l).getLast? = some b →
      reachB edges f a b = true := by
  intro l
  induction l with
  | nil =>
    intro f a b _ _ hb
    simp only [List.getLast?_singleton, Option.some_inj] at hb
    exact hb ▸ reachB_refl edges f a
  | cons z t ih =>
    intro f a b hf h hb
    rcases List.chain_cons.mp h with ⟨⟨e, he, h1, h2⟩, ht⟩
    obtain ⟨f', rfl⟩ : ∃ f', f = f' + 1 := by
      cases f
      · simp at hf
      · exact ⟨_, rfl⟩
    simp only [reachB, Bool.or_eq_true, List.any_eq_true, Bool.and_eq_true]
    refine Or.inr ⟨e, he, beq_iff_eq.mpr h1, ?_⟩
    rw [List.getLast?_cons_cons] at hb
    simp only [List.length_cons] at hf
    exact h2 ▸ ih (by omega) ht hb

theorem chain_reachB {edges : List EdgeT} :
    ∀ (n : Nat) (l : List Nat), l.length ≤ n → ∀ (a b : Nat),
      List.Chain (stepR edges) a l →
      (a :: l).getLast? = some b →
      reachB edges edges.length a b = true := by
  intro n
  induction n with
  | zero =>
    intro l hl a b hc hb
    have : l = [] := List.length_eq_zero.mp (Nat.le_zero.mp hl)
    subst this
    simp only [List.getLast?_singleton, Option.some_inj] at hb
    exact hb ▸ reachB_refl edges edges.length a
  | succ n ih =>
    intro l hl a b hc hb
    by_cases hshort : l.length ≤ edges.length
    · exact chain_reachB_of_short hshort hc hb
    · -- the chain is longer than the number of edges: its nodes repeat,
      -- so it can be shortened
      have hsub : ∀ y ∈ l, y ∈ edges.map EdgeT.tgt := chain_tgt_mem hc
      have hnd : ¬ l.Nodup := by
        intro hnd
        have := List.Subperm.length_le (List.subperm_of_subset hnd hsub)
        simp only [List.length_map] at this
        omega
      obtain ⟨x, l₁, l₂, l₃, rfl⟩ := not_nodup_split hnd
      rcases List.chain_split.mp hc with ⟨hc1, hc2⟩
      rcases List.chain_split.mp hc2 with ⟨_, hc3⟩
      have hc' : List.Chain (stepR edges) a (l₁ ++ x :: l₃) :=
        List.chain_split.mpr ⟨hc1, hc3⟩
      have hb' : (a :: (l₁ ++ x :: l₃)).getLast? = some b := by
        have e1 : a :: (l₁ ++ x :: (l₂ ++ x :: l₃))
            = ((a :: l₁) ++ (x :: l₂)) ++ (x :: l₃) := by simp
        have e2 : a :: (l₁ ++ x :: l₃) = (a :: l₁) ++ (x :: l₃) := by simp
        rw [e1, List.getLast?_append_cons] at hb
        rw [e2, List.getLast?_append_cons]
        exact hb
      have hlen : (l₁ ++ x :: l₃).length ≤ n := by
        simp only [List.length_append, List.length_cons] at hl ⊢
        omega
      exact ih _ hlen a b hc' hb'

theorem reachB_complete {edges : List EdgeT} {a b : Nat}
    (h : Relation.ReflTransGen (stepR edges) a b) :
    reachB edges edges.length a b = true := by
  obtain ⟨l, hc, hb⟩ := List.exists_chain_of_relationReflTransGen h
  have hb' : (a :: l).getLast? = some b := by
    rw [List.getLast?_eq_getLast_of_ne_nil (List.cons_ne_nil a l), hb]
  exact chain_reachB l.length l le_rfl a b hc hb'

theorem cyclicB_iff {g : Graph} : cyclicB g = true ↔ CyclicR g := by
  constructor
  · intro h
    simp only [cyclicB, List.any_eq_true] at h
    obtain ⟨e, he, hr⟩ := h
    exact ⟨e.src, Relation.TransGen.head' ⟨e, he, rfl, rfl⟩ (reachB_sound hr)⟩
  · rintro ⟨n, htg⟩
    obtain ⟨c, hst, hrt⟩ := Relation.TransGen.head'_iff.mp htg
    obtain ⟨e, he, h1, h2⟩ := hst
    simp only [cyclicB, List.any_eq_true]
    exact ⟨e, he, by subst h1 h2; exact reachB_complete hrt⟩

theorem acyclicR_iff {g : Graph} : AcyclicR g ↔ cyclicB g = false := by
  rw [← Bool.not_eq_true]
  constructor
  · intro h hc
    obtain ⟨n, hn⟩ := cyclicB_iff.mp hc
    exact h n hn
  · intro h n hn
    exact h (cyclicB_iff.mpr ⟨n, hn⟩)

theorem acyclicE_mono {E E' : List EdgeT} (h : E' ⊆ E)
    (ha : AcyclicE E) : AcyclicE E' := by
  intro n hn
  exact ha n (hn.mono (fun a b hs => stepR_mono h hs))

/-! ### The `set_edge` invariants: single incoming edge per variant,
acyclicity -/

/-- Every node has at most one incoming edge of each variant. -/
def EdgeInvE (E : List EdgeT) : Prop :=
  ∀ (n : Nat) (k : EdgeKind), E.countP (edgePred n k) ≤ 1

theorem countP_eraseP {p : EdgeT → Bool} :
    ∀ {l : List EdgeT}, (∃ x ∈ l, p x) →
      (l.eraseP p).countP p + 1 = l.countP p := by
  intro l
  induction l with
  | nil => rintro ⟨x, hx, -⟩; simp at hx
  | cons e t ih =>
    rintro ⟨x, hx, hpx⟩
    by_cases hpe : p e
    · rw [List.eraseP_cons_of_pos hpe, List.countP_cons, if_pos hpe]
    · have hx' : x ∈ t := by
        rcases List.mem_cons.mp hx with rfl | hx'
        · exact absurd hpx hpe
        · exact hx'
      have := ih ⟨x, hx', hpx⟩
      simp only [List.eraseP_cons_of_neg hpe, List.countP_cons, if_neg hpe]
      omega

/-- The possible edge lists after `set_edge`: unchanged, the prior
same-variant incoming edge removed, or that removal plus the new edge. -/
theorem set_edge_edges {g g' : Graph} {a b : Nat} {k : EdgeKind}
    (h : set_edge g a b k = some g') :
    g'.edges = g.edges ∨ g'.edges = g.edges.eraseP (edgePred b k) ∨
      g'.edges = ⟨a, b, k⟩ :: g.edges.eraseP (edgePred b k) := by
  unfold set_edge addEdgeChecked at h
  split at h
  · split at h
    · rename_i e he
      split at h
      · exact Or.inl (by cases h; rfl)
      · split at h
        · split at h <;> cases h
          · exact Or.inr (Or.inl rfl)
          · exact Or.inr (Or.inr rfl)
        · cases h
    · rename_i hnone
      have herase : g.edges.eraseP (edgePred b k) = g.edges :=
        List.eraseP_of_forall_not (List.find?_eq_none.mp hnone)
      split at h
      · split at h <;> cases h
        · exact Or.inl rfl
        · exact Or.inr (Or.inr (by rw [herase]))
      · cases h
  · cases h

theorem set_edge_same {g g' : Graph} {a b : Nat} {k : EdgeKind}
    (h : set_edge g a b k = some g') :
    g'.nodes = g.nodes ∧ g'.index_map = g.index_map ∧ g'.root = g.root := by
  unfold set_edge addEdgeChecked at h
  split at h
  · split at h
    · split at h
      · exact (by cases h; exact ⟨rfl, rfl, rfl⟩)
      · split at h
        · split at h <;> cases h <;> exact ⟨rfl, rfl, rfl⟩
        · cases h
    · split at h
      · split at h <;> cases h <;> exact ⟨rfl, rfl, rfl⟩
      · cases h
  · cases h

theorem edgeInvE_sub {E E' : List EdgeT} (h : List.Sublist E' E)
    (hi : EdgeInvE E) : EdgeInvE E' :=
  fun n k => Nat.le_trans (h.countP_le _) (hi n k)

theorem edgeInvE_set_edge {g g' : Graph} {a b : Nat} {k : EdgeKind}
    (hi : EdgeInvE g.edges) (h : set_edge g a b k = some g') :
    EdgeInvE g'.edges := by
  rcases set_edge_edges h with he | he | he
  · rwa [he]
  · rw [he]; exact edgeInvE_sub (List.eraseP_sublist _) hi
  · rw [he]
    intro n k'
    rw [List.countP_cons]
    by_cases hp : edgePred n k' (⟨a, b, k⟩ : EdgeT)
    · rw [if_pos hp]
      obtain ⟨h1, h2⟩ : b = n ∧ k = k' := by
        simpa [edgePred, beq_iff_eq] using hp
      subst h1
      subst h2
      by_cases hex : ∃ x ∈ g.edges, edgePred b k x
      · have := countP_eraseP hex
        have := hi b k
        omega
      · have h0 : g.edges.countP (edgePred b k) = 0 :=
          List.countP_eq_zero.mpr (fun x hx hp => hex ⟨x, hx, hp⟩)
        have : (g.edges.eraseP (edgePred b k)).countP (edgePred b k)
            ≤ g.edges.countP (edgePred b k) :=
          (List.eraseP_sublist _).countP_le _
        omega
    · rw [if_neg hp]
      have := @edgeInvE_sub g.edges (g.edges.eraseP (edgePred b k))
        (List.eraseP_sublist g.edges) hi n k'
      omega

theorem addEdgeChecked_acyclic {g g' : Graph} {a b : Nat} {k : EdgeKind}
    (ha : AcyclicE g.edges) (h : addEdgeChecked g a b k = some g') :
    AcyclicE g'.edges := by
  unfold addEdgeChecked at h
  split at h
  · split at h <;> cases h
    · exact ha
    · rename_i hcyc
      exact acyclicR_iff.mpr (Bool.of_not_eq_true hcyc)
  · cases h

theorem set_edge_acyclic {g g' : Graph} {a b : Nat} {k : EdgeKind}
    (ha : AcyclicE g.edges) (h : set_edge g a b k = some g') :
    AcyclicE g'.edges := by
  unfold set_edge at h
  split at h
  · split at h
    · split at h
      · cases h; exact ha
      · exact addEdgeChecked_acyclic
          (acyclicE_mono (List.eraseP_sublist _).subset ha) h
    · exact addEdgeChecked_acyclic ha h
  · cases h

/-- The full structural invariant of reachable edge lists. -/
def GInvE (E : List EdgeT) : Prop := EdgeInvE E ∧ AcyclicE E

theorem gInv_set_edge {g g' : Graph} {a b : Nat} {k : EdgeKind}
    (hi : GInvE g.edges) (h : set_edge g a b k = some g') : GInvE g'.edges :=
  ⟨edgeInvE_set_edge hi.1 h, set_edge_acyclic hi.2 h⟩

theorem gInv_eraseP {E : List EdgeT} {p : EdgeT → Bool}
    (hi : GInvE E) : GInvE (E.eraseP p) :=
  ⟨edgeInvE_sub (List.eraseP_sublist _) hi.1,
   acyclicE_mono (List.eraseP_sublist _).subset hi.2⟩

theorem gInv_setParent {g g' : Graph} {idx : GIdx} {mp : Option GIdx}
    (hi : GInvE g.edges) (h : setParentForWidget g idx mp = some g') :
    GInvE g'.edges := by
  unfold setParentForWidget at h
  split at h
  · cases h
  · split at h
    · exact gInv_set_edge hi h
    · split at h
      · exact gInv_set_edge hi h
      · split at h
        · cases h
        · refine gInv_set_edge ?_ h
          exact hi

theorem gInv_addWidget {g g' : Graph} {c : Container} {mid : Option Nat}
    {mp : Option GIdx} (hi : GInvE g.edges) (h : addWidget g c mid mp = some g') :
    GInvE g'.edges := by
  unfold addWidget at h
  refine gInv_setParent ?_ h
  exact hi

theorem gInv_preUpdateNodeAt {g1 g2 : Graph} {nodeIdx : Nat} {w : PreUpdateCache}
    (hi : GInvE g1.edges) (h : preUpdateNodeAt g1 nodeIdx w = some g2) :
    GInvE g2.edges := by
  unfold preUpdateNodeAt at h
  split at h
  · cases h; exact hi
  · split at h
    · cases h
    · cases h; exact hi
  · cases h

theorem gInv_preUpdateCacheNode {g g2 : Graph} {w : PreUpdateCache}
    (hi : GInvE g.edges) (hn : preUpdateCacheNode g w = some g2) :
    GInvE g2.edges := by
  unfold preUpdateCacheNode at hn
  split at hn
  · rcases hp : setParentForWidget g w.idx w.maybe_parent_idx with _ | g1
    · rw [hp] at hn; cases hn
    · rw [hp] at hn
      exact gInv_preUpdateNodeAt (gInv_setParent hi hp) hn
  · split at hn
    · cases hn
    · exact gInv_addWidget hi hn

theorem gInv_preUpdateCache {g g' : Graph} {w : PreUpdateCache}
    (hi : GInvE g.edges) (h : preUpdateCache g w = some g') : GInvE g'.edges := by
  unfold preUpdateCache at h
  split at h
  · cases h
  · rename_i g2 hn
    have hi2 := gInv_preUpdateCacheNode hi hn
    split at h
    · unfold setRelativePositionEdge at h
      split at h
      · exact gInv_set_edge hi2 h
      · cases h
    · unfold removeIncomingRelEdge at h
      split at h
      · cases h
      · split at h
        · cases h; exact gInv_eraseP hi2
        · cases h

theorem gInv_postUpdateCache {g g' : Graph} {w : PostUpdateCache}
    (h : postUpdateCache g w = some g') (hi : GInvE g.edges) :
    GInvE g'.edges := by
  unfold postUpdateCache at h
  split at h
  · cases h
    exact hi
  · split at h
    · cases h
    · cases h
    · cases h
      exact hi
    · cases h
      exact hi

/-- Did `set_edge`'s walk find the requested edge already present? -/
def alreadySetB (g : Graph) (a b : Nat) (k : EdgeKind) : Bool :=
  match g.edges.find? (edgePred b k) with
  | some e => e.src == a
  | none => false

theorem gInv_reachable {g : Graph} (h : Reachable g) : GInvE g.edges := by
  induction h with
  | init =>
    refine ⟨fun n k => by simp [withCapacity, List.countP_nil], fun n hn => ?_⟩
    obtain ⟨c, hst, -⟩ := Relation.TransGen.head'_iff.mp hn
    obtain ⟨e, he, -, -⟩ := hst
    simp [withCapacity] at he
  | add_placeholder _ ih => exact ih
  | add_widget _ h ih => exact gInv_addWidget ih h
  | pre_update _ h ih => exact gInv_preUpdateCache ih h
  | post_update _ h ih => exact gInv_postUpdateCache h ih

/-! ### Claims C2 and C3 -/

/-- **C2.** After any sequence of public graph operations
(`add_placeholder`, `pre_update_cache`, `post_update_cache`,
`add_widget`), every node of the widget graph has at most one incoming
`Child` edge and at most one incoming `RelativePosition` edge, and the
directed graph is acyclic. -/
theorem claim_C2 {g : Graph} (h : Reachable g) :
    (∀ n : Nat, incomingCount g n EdgeKind.Child ≤ 1 ∧
      incomingCount g n EdgeKind.RelativePosition ≤ 1) ∧ AcyclicR g := by
  obtain ⟨hc, ha⟩ := gInv_reachable h
  exact ⟨fun n => ⟨hc n EdgeKind.Child, hc n EdgeKind.RelativePosition⟩, ha⟩

/-- A sample `PreUpdateCache` record for concrete executions. -/
def c2w : PreUpdateCache :=
  { kind := "Button"
    idx := GIdx.widgetId 3
    maybe_parent_idx := none
    maybe_positioned_relatively_idx := none
    xy := (0, 0)
    dim := (1, 1)
    depth := some 0
    kid_area := { xy := (0, 0), dim := (1, 1) }
    maybe_floating := none
    maybe_scrolling := none }

/-- The graph reached from a fresh graph by one `pre_update_cache` call. -/
def c2g : Graph :=
  { nodes := [Node.Root, Node.Widget (newContainer c2w)]
    edges := [⟨0, 1, EdgeKind.Child⟩]
    index_map := [(3, 1)]
    root := 0 }

theorem claim_C2_witness :
    incomingCount c2g 1 EdgeKind.Child ≤ 1 ∧ AcyclicR c2g := by
  have hr : Reachable c2g :=
    @Reachable.pre_update withCapacity c2g c2w Reachable.init (by decide)
  exact ⟨(claim_C2 hr).1 1 |>.1, (claim_C2 hr).2⟩

/-- A plain widget container for concrete executions. -/
def exContainer (d : Option ℚ) (fl : Option Floating) (sc : Option ScrollState)
    (upd : Bool) : Container :=
  { maybe_state := none
    kind := "K"
    dim := (1, 1)
    xy := (0, 0)
    depth := d
    kid_area := { xy := (0, 0), dim := (1, 1) }
    maybe_floating := fl
    maybe_scrolling := sc
    element_has_changed := false
    maybe_element := none
    is_updated := upd
    was_previously_updated := false }

/-- Root with widget 1 (child of the root) and widget 2 (child of 1). -/
def c3g : Graph :=
  { nodes := [Node.Root, Node.Widget (exContainer (some 1) none none true),
              Node.Widget (exContainer (some 2) none none true)]
    edges := [⟨0, 1, EdgeKind.Child⟩, ⟨1, 2, EdgeKind.Child⟩]
    index_map := []
    root := 0 }

/-- **C3, counterexample.**  Requesting the `Child` edge `2 → 1` on `c3g`
would create a cycle, so the edge is rejected and the graph stays acyclic
— but the connectivity of the `Child` variant on the target node 1 is
*not* unchanged: its previous incoming `Child` edge from the root was
removed during the attempt and is not restored (the node is left with no
parent edge). -/
theorem claim_C3_counterexample :
    cyclicB { c3g with
      edges := ⟨2, 1, EdgeKind.Child⟩ ::
        c3g.edges.eraseP (edgePred 1 EdgeKind.Child) } = true ∧
    set_edge c3g 2 1 EdgeKind.Child =
      some { c3g with edges := [⟨1, 2, EdgeKind.Child⟩] } ∧
    incomingCount c3g 1 EdgeKind.Child = 1 ∧
    incomingCount { c3g with edges := [⟨1, 2, EdgeKind.Child⟩] }
      1 EdgeKind.Child = 0 := by
  decide

/-- **C3, amended.**  For every acyclic graph state, a non-fatally
completing `set_edge` call leaves the graph acyclic; when the requested
edge was not already present and its addition would create a cycle, the
result is the graph *after* the removal of the target's prior incoming
edge of that variant: the requested edge is absent, but the prior edge
(if it came from a different source) has been removed and is not
restored. -/
theorem claim_C3 {g g' : Graph} {a b : Nat} {k : EdgeKind}
    (ha : AcyclicR g) (hs : set_edge g a b k = some g') :
    AcyclicR g' ∧
      (alreadySetB g a b k = false →
        cyclicB { g with
          edges := ⟨a, b, k⟩ :: g.edges.eraseP (edgePred b k) } = true →
        g'.edges = g.edges.eraseP (edgePred b k)) := by
  refine ⟨set_edge_acyclic ha hs, fun hset hcyc => ?_⟩
  unfold set_edge at hs
  split at hs
  · split at hs
    · rename_i e heq
      have hsrc : (e.src == a) = false := by
        unfold alreadySetB at hset
        rwa [heq] at hset
      rw [hsrc] at hs
      simp only [Bool.false_eq_true, if_false] at hs
      unfold addEdgeChecked at hs
      try dsimp only at hs
      split at hs
      · cases hs
        rfl
      · cases hs
    · rename_i heq
      have herase : g.edges.eraseP (edgePred b k) = g.edges :=
        List.eraseP_of_forall_not (List.find?_eq_none.mp heq)
      rw [herase] at hcyc
      unfold addEdgeChecked at hs
      try dsimp only at hs
      split at hs
      · cases hs
        exact herase.symm
      · cases hs
  · cases hs

theorem claim_C3_witness :
    AcyclicR { c3g with edges := [⟨1, 2, EdgeKind.Child⟩] } ∧
      ({ c3g with edges := [⟨1, 2, EdgeKind.Child⟩] } : Graph).edges =
        c3g.edges.eraseP (edgePred 1 EdgeKind.Child) := by
  have ha : AcyclicR c3g := acyclicR_iff.mpr (by decide)
  have hs : set_edge c3g 2 1 EdgeKind.Child =
      some { c3g with edges := [⟨1, 2, EdgeKind.Child⟩] } := by decide
  have h := claim_C3 ha hs
  exact ⟨h.1, h.2 (by decide) (by decide)⟩

/-! ### The stable-sort model: permutation, totality and sortedness -/

theorem insertBack_perm {cmp : Nat → Nat → Option Ordering} {x : Nat} :
    ∀ {rev out : List Nat}, insertBack cmp x rev = some out →
      out.Perm (x :: rev) := by
  intro rev
  induction rev with
  | nil =>
    intro out h
    cases h
    exact List.Perm.refl _
  | cons z zs ih =>
    intro out h
    unfold insertBack at h
    split at h
    · cases h
    · rcases hrec : insertBack cmp x zs with _ | out'
      · rw [hrec] at h; cases h
      · rw [hrec] at h
        cases h
        exact ((ih hrec).cons z).trans (List.Perm.swap x z zs)
    · cases h
      exact List.Perm.refl _

theorem sortGo_perm {cmp : Nat → Nat → Option Ordering} :
    ∀ {l rev out : List Nat}, sortGo cmp l rev = some out →
      out.Perm (rev.reverse ++ l) := by
  intro l
  induction l with
  | nil =>
    intro rev out h
    cases h
    simp
  | cons x xs ih =>
    intro rev out h
    unfold sortGo at h
    rcases hins : insertBack cmp x rev with _ | rev'
    · rw [hins] at h; cases h
    · rw [hins] at h
      refine (ih h).trans ?_
      have p1 : (rev'.reverse ++ xs).Perm (x :: (rev ++ xs)) :=
        ((List.reverse_perm rev').append_right xs).trans
          ((insertBack_perm hins).append_right xs)
      have p2 : (rev.reverse ++ (x :: xs)).Perm (x :: (rev ++ xs)) :=
        ((List.reverse_perm rev).append_right (x :: xs)).trans List.perm_middle
      exact p1.trans p2.symm

theorem sortRust_perm {cmp : Nat → Nat → Option Ordering} {l out : List Nat}
    (h : sortRust cmp l = some out) : out.Perm l := by
  have := sortGo_perm h
  simpa using this

/-- Insertion into a reversed run whose keys are non-increasing keeps the
keys non-increasing, for a comparator given by a key function. -/
theorem insertBack_key {β : Type} [LinearOrder β]
    {cmp : Nat → Nat → Option Ordering} {key : Nat → β} {x : Nat} :
    ∀ {rev : List Nat},
      (∀ z ∈ rev, cmp x z = some (compare (key x) (key z))) →
      rev.Pairwise (fun a b => key b ≤ key a) →
      ∃ out, insertBack cmp x rev = some out ∧
        out.Pairwise (fun a b => key b ≤ key a) := by
  intro rev
  induction rev with
  | nil =>
    intro _ _
    exact ⟨[x], rfl, List.pairwise_singleton _ _⟩
  | cons z zs ih =>
    intro hc hp
    rcases List.pairwise_cons.mp hp with ⟨hz, hzs⟩
    have hcz := hc z (List.mem_cons_self z zs)
    rcases hcmp : compare (key x) (key z) with _ | _ | _
    · -- key x < key z : sift x further left
      obtain ⟨out', hout', hp'⟩ :=
        ih (fun w hw => hc w (List.mem_cons_of_mem z hw)) hzs
      refine ⟨z :: out', ?_, ?_⟩
      · unfold insertBack
        rw [hcz, hcmp, hout']
        rfl
      · refine List.pairwise_cons.mpr ⟨?_, hp'⟩
        intro w hw
        have : w ∈ x :: zs := (insertBack_perm hout').mem_iff.mp hw
        rcases List.mem_cons.mp this with rfl | hw'
        · exact le_of_lt (compare_lt_iff_lt.mp hcmp)
        · exact hz w hw'
    · -- key x = key z : stable, x goes right of z
      refine ⟨x :: z :: zs, ?_, ?_⟩
      · unfold insertBack
        rw [hcz, hcmp]
      · refine List.pairwise_cons.mpr ⟨?_, hp⟩
        intro w hw
        have hze : key z = key x := (compare_eq_iff_eq.mp hcmp).symm
        rcases List.mem_cons.mp hw with rfl | hw'
        · exact le_of_eq hze
        · exact le_trans (hz w hw') (le_of_eq hze)
    · -- key x > key z
      refine ⟨x :: z :: zs, ?_, ?_⟩
      · unfold insertBack
        rw [hcz, hcmp]
      · refine List.pairwise_cons.mpr ⟨?_, hp⟩
        intro w hw
        have hzx : key z < key x := compare_gt_iff_gt.mp hcmp
        rcases List.mem_cons.mp hw with rfl | hw'
        · exact le_of_lt hzx
        · exact le_trans (hz w hw') (le_of_lt hzx)

theorem sortGo_key {β : Type} [LinearOrder β]
    {cmp : Nat → Nat → Option Ordering} {key : Nat → β} :
    ∀ {l rev : List Nat},
      (∀ x ∈ l, ∀ z ∈ rev ++ l, cmp x z = some (compare (key x) (key z))) →
      rev.Pairwise (fun a b => key b ≤ key a) →
      ∃ out, sortGo cmp l rev = some out ∧
        out.Pairwise (fun a b => key a ≤ key b) := by
  intro l
  induction l with
  | nil =>
    intro rev _ hp
    exact ⟨rev.reverse, rfl, List.pairwise_reverse.mpr hp⟩
  | cons x xs ih =>
    intro rev hc hp
    obtain ⟨rev', hins, hp'⟩ :=
      insertBack_key
        (fun z hz => hc x (List.mem_cons_self x xs) z
          (List.mem_append.mpr (Or.inl hz))) hp
    have hmem : ∀ z ∈ rev' ++ xs, z ∈ rev ++ (x :: xs) := by
      intro z hz
      rcases List.mem_append.mp hz with hz | hz
      · rcases List.mem_cons.mp ((insertBack_perm hins).mem_iff.mp hz) with
          rfl | hz'
        · exact List.mem_append.mpr (Or.inr (List.mem_cons_self z xs))
        · exact List.mem_append.mpr (Or.inl hz')
      · exact List.mem_append.mpr (Or.inr (List.mem_cons_of_mem x hz))
    obtain ⟨out, hout, hpout⟩ :=
      ih (fun y hy z hz =>
        hc y (List.mem_cons_of_mem x hy) z (hmem z hz)) hp'
    refine ⟨out, ?_, hpout⟩
    unfold sortGo
    rw [hins]
    exact hout

/-- For a comparator that is given by a key into a linear order on the
sorted list's members, the stable sort succeeds, permutes its input, and
the output keys are non-decreasing. -/
theorem sortRust_key {β : Type} [LinearOrder β]
    {cmp : Nat → Nat → Option Ordering} {key : Nat → β} {l : List Nat}
    (hc : ∀ x ∈ l, ∀ z ∈ l, cmp x z = some (compare (key x) (key z))) :
    ∃ out, sortRust cmp l = some out ∧ out.Perm l ∧
      out.Pairwise (fun a b => key a ≤ key b) := by
  have hc' : ∀ x ∈ l, ∀ z ∈ ([] : List Nat) ++ l,
      cmp x z = some (compare (key x) (key z)) := by
    simpa using hc
  obtain ⟨out, hout, hpout⟩ := sortGo_key hc' List.Pairwise.nil
  exact ⟨out, hout, sortRust_perm hout, hpout⟩

/-! ### Claim C4: sibling order under the capture/depth comparator -/

/-- The cached depth of the widget at a node, if the node holds a widget
with a non-NaN depth. -/
def depthOf (g : Graph) (n : Nat) : Option ℚ :=
  match g.nodes.get? n with
  | some (Node.Widget c) => c.depth
  | _ => none

theorem compare_neg_q (x y : ℚ) : compare (-x) (-y) = compare y x := by
  rcases lt_trichotomy x y with h | h | h
  · rw [compare_gt_iff_gt.mpr (neg_lt_neg h), compare_gt_iff_gt.mpr h]
  · subst h
    rw [compare_eq_iff_eq.mpr rfl, compare_eq_iff_eq.mpr rfl]
  · rw [compare_lt_iff_lt.mpr (neg_lt_neg h), compare_lt_iff_lt.mpr h]

theorem pairwise_get? {r : Nat → Nat → Prop} {l : List Nat} (h : l.Pairwise r)
    {i j a b : Nat} (hij : i < j) (ha : l.get? i = some a)
    (hb : l.get? j = some b) : r a b := by
  obtain ⟨hi, ha'⟩ := List.get?_eq_some.mp ha
  obtain ⟨hj, hb'⟩ := List.get?_eq_some.mp hb
  have := List.pairwise_iff_get.mp h ⟨i, hi⟩ ⟨j, hj⟩ hij
  rwa [ha', hb'] at this

/-- Root with two widget children: node 1 (depth 2, added to the graph
last, so iterated first) and node 2 (depth 1). -/
def c4g : Graph :=
  { nodes := [Node.Root, Node.Widget (exContainer (some 2) none none true),
              Node.Widget (exContainer (some 1) none none true)]
    edges := [⟨0, 1, EdgeKind.Child⟩, ⟨0, 2, EdgeKind.Child⟩]
    index_map := []
    root := 0 }

/-- **C4, counterexample.**  With the mouse captured by node 1 (depth 2)
and its uncaptured sibling node 2 (depth 1), the computed depth order
visits the captured child *first*, not after its uncaptured sibling: the
stable sort only ever compares the element being inserted as the first
comparator argument, so the captured node (which compares `Greater` only
as a first argument) is never moved behind a sibling it precedes. -/
theorem claim_C4_counterexample :
    neighborsOut c4g 0 = [1, 2] ∧
    depthOf c4g 1 = some 2 ∧ depthOf c4g 2 = some 1 ∧
    updateDepthOrder c4g (some 1) none 9 =
      Res.ok [Visitable.Widget 1, Visitable.Widget 2] := by
  decide

/-- Root with two uncaptured widget children of depths 2 (node 1) and
1 (node 2). -/
def c4wg : Graph := c4g

/-! ### The depth-order visit: tree hypotheses and ordering invariants -/

/-- A child-edge step (the claim's "ancestor via Child edges" relation). -/
def childStepR (g : Graph) (a b : Nat) : Prop :=
  ∃ e ∈ g.edges, e.src = a ∧ e.tgt = b ∧ e.kind = EdgeKind.Child

/-- The "tree of touched widgets" hypotheses of the depth-order claims:
only `Child` edges, a single incoming edge per node, and acyclicity —
exactly the shape `pre_update_cache` sequences without relative
positioning produce (compare `claim_C2`). -/
structure TreeHyps (g : Graph) : Prop where
  child_only : ∀ e ∈ g.edges, e.kind = EdgeKind.Child
  single_in : ∀ b : Nat, g.edges.countP (fun e => e.tgt == b) ≤ 1
  acyclic : AcyclicE g.edges

/-- Node `n` occurs as a widget entry at position `i` of the order. -/
def occW (O : List Visitable) (n i : Nat) : Prop :=
  O.get? i = some (Visitable.Widget n)

/-- Every (proper-)ancestor occurrence precedes every descendant
occurrence. -/
def ordOK (g : Graph) (O : List Visitable) : Prop :=
  ∀ a d i j, Relation.TransGen (stepR g.edges) a d →
    occW O a i → occW O d j → i < j

/-- No descendant-or-self of `f` occurs in `O`. -/
def descFree (g : Graph) (f : Nat) (O : List Visitable) : Prop :=
  ∀ x i, occW O x i → ¬ Relation.ReflTransGen (stepR g.edges) f x

/-- `f1` and `f2` have no common descendant (in particular they are
distinct and neither is an ancestor of the other). -/
def disjD (g : Graph) (f1 f2 : Nat) : Prop :=
  ∀ x, Relation.ReflTransGen (stepR g.edges) f1 x →
    Relation.ReflTransGen (stepR g.edges) f2 x → False

/-- The invariant carried through the visit: the emitted order respects
ancestry, every queued floating widget has a descendant-free subtree, and
the queued subtrees are pairwise disjoint. -/
def INV (g : Graph) (O : List Visitable) (FQ : List Nat) : Prop :=
  ordOK g O ∧ (∀ f ∈ FQ, descFree g f O) ∧ FQ.Pairwise (disjD g)

theorem disjD_symm {g : Graph} {f1 f2 : Nat} (h : disjD g f1 f2) :
    disjD g f2 f1 :=
  fun x h2 h1 => h x h1 h2

theorem occW_append_left {O Δ : List Visitable} {x i : Nat}
    (h : occW O x i) : occW (O ++ Δ) x i := by
  unfold occW at h ⊢
  have hi := (List.get?_eq_some.mp h).1
  rwa [List.get?_append hi]

theorem occW_append_elim {O Δ : List Visitable} {x i : Nat}
    (h : occW (O ++ Δ) x i) :
    occW O x i ∨ ∃ j, Δ.get? j = some (Visitable.Widget x) ∧
      i = O.length + j := by
  by_cases hi : i < O.length
  · left
    unfold occW at h ⊢
    rwa [List.get?_append hi] at h
  · right
    push_neg at hi
    refine ⟨i - O.length, ?_, by omega⟩
    unfold occW at h
    rwa [List.get?_append_right hi] at h

theorem occW_snoc_widget {O : List Visitable} {w x i : Nat}
    (h : occW (O ++ [Visitable.Widget w]) x i) :
    occW O x i ∨ (x = w ∧ i = O.length) := by
  rcases occW_append_elim h with h | ⟨j, hj, hije⟩
  · exact Or.inl h
  · rcases j with _ | j
    · simp only [List.get?] at hj
      cases hj
      exact Or.inr ⟨rfl, by omega⟩
    · simp [List.get?] at hj

theorem occW_snoc_scrollbar {O : List Visitable} {w x i : Nat}
    (h : occW (O ++ [Visitable.Scrollbar w]) x i) : occW O x i := by
  rcases occW_append_elim h with h | ⟨j, hj, -⟩
  · exact h
  · rcases j with _ | j
    · simp only [List.get?] at hj
      cases hj
    · simp [List.get?] at hj

theorem occW_snoc_widget_self {O : List Visitable} {w : Nat} :
    occW (O ++ [Visitable.Widget w]) w O.length := by
  unfold occW
  rw [List.get?_append_right (Nat.le_refl _)]
  simp

theorem ordOK_push {g : Graph} {O : List Visitable} {idx : Nat}
    (hord : ordOK g O) (hdf : descFree g idx O)
    (hac : ¬ Relation.TransGen (stepR g.edges) idx idx) :
    ordOK g (O ++ [Visitable.Widget idx]) := by
  intro a d i j htg ha hd
  rcases occW_snoc_widget ha with ha' | ⟨rfl, rfl⟩
  · rcases occW_snoc_widget hd with hd' | ⟨rfl, rfl⟩
    · exact hord a d i j htg ha' hd'
    · exact Nat.lt_of_lt_of_le (List.get?_eq_some.mp ha').1 (Nat.le_refl _)
  · rcases occW_snoc_widget hd with hd' | ⟨rfl, rfl⟩
    · exact absurd htg.to_reflTransGen (hdf d j hd')
    · exact absurd htg hac

theorem descFree_push {g : Graph} {O : List Visitable} {f idx : Nat}
    (hdf : descFree g f O) (hdisj : disjD g f idx) :
    descFree g f (O ++ [Visitable.Widget idx]) := by
  intro x i hx
  rcases occW_snoc_widget hx with hx' | ⟨rfl, -⟩
  · exact hdf x i hx'
  · exact fun hr => hdisj x hr Relation.ReflTransGen.refl

theorem descFree_scrollbar {g : Graph} {O : List Visitable} {f w : Nat}
    (hdf : descFree g f O) :
    descFree g f (O ++ [Visitable.Scrollbar w]) :=
  fun x i hx => hdf x i (occW_snoc_scrollbar hx)

theorem ordOK_scrollbar {g : Graph} {O : List Visitable} {w : Nat}
    (hord : ordOK g O) : ordOK g (O ++ [Visitable.Scrollbar w]) :=
  fun a d i j htg ha hd =>
    hord a d i j htg (occW_snoc_scrollbar ha) (occW_snoc_scrollbar hd)

/-- Under the single-incoming-edge hypothesis, a node's parent is
unique. -/
theorem parent_unique {g : Graph} (th : TreeHyps g) {a b x : Nat}
    (ha : stepR g.edges a x) (hb : stepR g.edges b x) : a = b := by
  obtain ⟨e1, he1, hs1, ht1⟩ := ha
  obtain ⟨e2, he2, hs2, ht2⟩ := hb
  by_contra hne
  have hne' : e1 ≠ e2 := by
    intro h
    subst h
    exact hne (hs1.symm.trans hs2)
  have hsub : [e1, e2] ⊆ g.edges.filter (fun e => e.tgt == x) := by
    intro e he
    rcases List.mem_cons.mp he with rfl | he
    · exact List.mem_filter.mpr ⟨he1, beq_iff_eq.mpr ht1⟩
    · rcases List.mem_cons.mp he with rfl | he
      · exact List.mem_filter.mpr ⟨he2, beq_iff_eq.mpr ht2⟩
      · simp at he
  have hnd : ([e1, e2] : List EdgeT).Nodup := by
    simp [hne']
  have h2 := List.Subperm.length_le (List.subperm_of_subset hnd hsub)
  rw [← List.countP_eq_length_filter] at h2
  have := th.single_in x
  simp at h2
  omega

/-- Ancestor chains to a common node are comparable. -/
theorem anc_comparable {g : Graph} (th : TreeHyps g) {c c' x : Nat}
    (h1 : Relation.ReflTransGen (stepR g.edges) c x)
    (h2 : Relation.ReflTransGen (stepR g.edges) c' x) :
    Relation.ReflTransGen (stepR g.edges) c c' ∨
      Relation.ReflTransGen (stepR g.edges) c' c := by
  induction h1 using Relation.ReflTransGen.head_induction_on with
  | refl => exact Or.inr h2
  | head hstep _ ih =>
    rename_i s y _
    rcases ih with hyc' | hc'y
    · exact Or.inl (Relation.ReflTransGen.head hstep hyc')
    · rcases Relation.ReflTransGen.cases_tail hc'y with heq | ⟨z, hz, hzy⟩
      · subst heq
        exact Or.inl (Relation.ReflTransGen.head hstep Relation.ReflTransGen.refl)
      · have := parent_unique th hzy hstep
        subst this
        exact Or.inr hz

/-- Distinct children of a common parent have disjoint subtrees. -/
theorem siblings_disjD {g : Graph} (th : TreeHyps g) {p c c' : Nat}
    (hc : stepR g.edges p c) (hc' : stepR g.edges p c') (hne : c ≠ c') :
    disjD g c c' := by
  intro x hx hx'
  rcases anc_comparable th hx hx' with h | h
  · rcases Relation.ReflTransGen.cases_tail h with heq | ⟨z, hz, hzstep⟩
    · exact hne (by omega)
    · have hzp : z = p := parent_unique th hzstep hc'
      subst hzp
      exact th.acyclic c (Relation.TransGen.tail' hz hc)
  · rcases Relation.ReflTransGen.cases_tail h with heq | ⟨z, hz, hzstep⟩
    · exact hne (by omega)
    · have hzp : z = p := parent_unique th hzstep hc
      subst hzp
      exact th.acyclic c' (Relation.TransGen.tail' hz hc')

/-- The outgoing-neighbor list of any node has no duplicates when every
node has at most one incoming edge. -/
theorem tgt_map_nodup :
    ∀ (E : List EdgeT), (∀ b, E.countP (fun e => e.tgt == b) ≤ 1) →
      ∀ p, ((E.filter (fun e => e.src == p)).map EdgeT.tgt).Nodup := by
  intro E
  induction E with
  | nil => intro _ p; simp
  | cons e t ih =>
    intro hcnt p
    have hcnt' : ∀ b, t.countP (fun x => x.tgt == b) ≤ 1 := by
      intro b
      have := hcnt b
      rw [List.countP_cons] at this
      omega
    by_cases hsrc : (e.src == p) = true
    · rw [List.filter_cons, if_pos hsrc, List.map_cons]
      refine List.nodup_cons.mpr ⟨?_, ih hcnt' p⟩
      intro hmem
      obtain ⟨e', he'mem, he'tgt⟩ := List.mem_map.mp hmem
      have he'f := List.mem_filter.mp he'mem
      have h1 : 0 < t.countP (fun x => x.tgt == e.tgt) :=
        List.countP_pos.mpr ⟨e', he'f.1, beq_iff_eq.mpr he'tgt⟩
      have h2 := hcnt e.tgt
      rw [List.countP_cons, if_pos (beq_self_eq_true e.tgt)] at h2
      omega
    · rw [List.filter_cons, if_neg hsrc]
      exact ih hcnt' p

theorem mem_neighborsOut {g : Graph} {p c : Nat}
    (h : c ∈ neighborsOut g p) : stepR g.edges p c := by
  obtain ⟨e, hef, he⟩ := List.mem_map.mp h
  have := List.mem_filter.mp hef
  exact ⟨e, this.1, beq_iff_eq.mp this.2, he⟩

/-- The children of any node have pairwise disjoint subtrees. -/
theorem neighbors_pairwise {g : Graph} (th : TreeHyps g) (p : Nat) :
    (neighborsOut g p).Pairwise (disjD g) := by
  have hnd : (neighborsOut g p).Nodup := tgt_map_nodup g.edges th.single_in p
  refine hnd.pairwise_of_forall_ne ?_
  intro c hc c' hc' hne
  exact siblings_disjD th (mem_neighborsOut hc) (mem_neighborsOut hc') hne

/-- The master invariant of the recursive visit on a tree: the invariant
is preserved, new order entries lie in the visited subtree, and new
floating-deque entries lie in the visited subtree. -/
theorem visit_inv {g : Graph} (th : TreeHyps g) (mc mk : Option Nat) :
    ∀ f : Nat,
      (∀ idx O FQ O' FQ',
        visitByDepth g mc mk f idx O FQ = Res.ok (O', FQ') →
        INV g O FQ → descFree g idx O → (∀ q ∈ FQ, disjD g idx q) →
        INV g O' FQ' ∧
          (∀ x i, occW O' x i → occW O x i ∨
            Relation.ReflTransGen (stepR g.edges) idx x) ∧
          (∀ q ∈ FQ', q ∈ FQ ∨
            Relation.TransGen (stepR g.edges) idx q)) ∧
      (∀ kids O FQ O' FQ',
        visitKids g mc mk f kids O FQ = Res.ok (O', FQ') →
        INV g O FQ →
        (∀ c ∈ kids, descFree g c O ∧ ∀ q ∈ FQ, disjD g c q) →
        kids.Pairwise (disjD g) →
        INV g O' FQ' ∧
          (∀ x i, occW O' x i → occW O x i ∨
            ∃ c ∈ kids, Relation.ReflTransGen (stepR g.edges) c x) ∧
          (∀ q ∈ FQ', q ∈ FQ ∨
            ∃ c ∈ kids, Relation.ReflTransGen (stepR g.edges) c q)) := by
  intro f
  induction f with
  | zero =>
    constructor
    · intro idx O FQ O' FQ' h
      rw [visitByDepth] at h
      cases h
    · intro kids O FQ O' FQ' h
      rw [visitKids] at h
      cases h
  | succ f ihf =>
    constructor
    · -- visitByDepth at fuel f + 1
      intro idx O FQ O' FQ' h hInv hdf hdisj
      rw [visitByDepth] at h
      split at h
      · cases h
      · -- Placeholder
        cases h
        exact ⟨hInv, fun x i hx => Or.inl hx, fun q hq => Or.inl hq⟩
      · -- Widget c
        split at h
        · -- updated
          split at h
          · cases h
          · rename_i kids hsort
            have hperm := sortRust_perm hsort
            have hstep_kids : ∀ c' ∈ kids, stepR g.edges idx c' := fun c' hc' =>
              mem_neighborsOut (hperm.mem_iff.mp hc')
            have hInv1 : INV g (O ++ [Visitable.Widget idx]) FQ := by
              refine ⟨ordOK_push hInv.1 hdf (th.acyclic idx), ?_, hInv.2.2⟩
              intro q hq
              exact descFree_push (hInv.2.1 q hq) (disjD_symm (hdisj q hq))
            have hkid_hyps : ∀ c' ∈ kids,
                descFree g c' (O ++ [Visitable.Widget idx]) ∧
                ∀ q ∈ FQ, disjD g c' q := by
              intro c' hc'
              have hstep := hstep_kids c' hc'
              constructor
              · intro x i hx hr
                rcases occW_snoc_widget hx with hx' | ⟨heq, -⟩
                · exact hdf x i hx' (Relation.ReflTransGen.head hstep hr)
                · exact th.acyclic idx
                    (Relation.TransGen.head' hstep (heq ▸ hr))
              · intro q hq x hcx hqx
                exact hdisj q hq x (Relation.ReflTransGen.head hstep hcx) hqx
            have hkpair : kids.Pairwise (disjD g) :=
              (hperm.pairwise_iff (fun h => disjD_symm h)).mpr
                (neighbors_pairwise th idx)
            split at h
            · rename_i d2 f2 hkids
              obtain ⟨hInv2, hocc2, hfq2⟩ :=
                ihf.2 kids _ FQ d2 f2 hkids hInv1 hkid_hyps hkpair
              have hocc' : ∀ x i, occW d2 x i → occW O x i ∨
                  Relation.ReflTransGen (stepR g.edges) idx x := by
                intro x i hx
                rcases hocc2 x i hx with hx' | ⟨c', hc', hr⟩
                · rcases occW_snoc_widget hx' with hx'' | ⟨rfl, -⟩
                  · exact Or.inl hx''
                  · exact Or.inr Relation.ReflTransGen.refl
                · exact Or.inr
                    (Relation.ReflTransGen.head (hstep_kids c' hc') hr)
              have hfq' : ∀ q ∈ f2, q ∈ FQ ∨
                  Relation.TransGen (stepR g.edges) idx q := by
                intro q hq
                rcases hfq2 q hq with hq' | ⟨c', hc', hr⟩
                · exact Or.inl hq'
                · exact Or.inr
                    (Relation.TransGen.head' (hstep_kids c' hc') hr)
              split at h
              · -- scrollbar appended
                cases h
                refine ⟨⟨ordOK_scrollbar hInv2.1, ?_, hInv2.2.2⟩, ?_, hfq'⟩
                · intro q hq
                  exact descFree_scrollbar (hInv2.2.1 q hq)
                · intro x i hx
                  exact hocc' x i (occW_snoc_scrollbar hx)
              · cases h
                exact ⟨hInv2, hocc', hfq'⟩
            · rename_i hne
              exact absurd h (hne O' FQ')
        · -- not updated
          cases h
          exact ⟨hInv, fun x i hx => Or.inl hx, fun q hq => Or.inl hq⟩
      · -- Root
        split at h
        · cases h
        · rename_i kids hsort
          have hperm := sortRust_perm hsort
          have hstep_kids : ∀ c' ∈ kids, stepR g.edges idx c' := fun c' hc' =>
            mem_neighborsOut (hperm.mem_iff.mp hc')
          have hkid_hyps : ∀ c' ∈ kids, descFree g c' O ∧
              ∀ q ∈ FQ, disjD g c' q := by
            intro c' hc'
            have hstep := hstep_kids c' hc'
            constructor
            · intro x i hx hr
              exact hdf x i hx (Relation.ReflTransGen.head hstep hr)
            · intro q hq x hcx hqx
              exact hdisj q hq x (Relation.ReflTransGen.head hstep hcx) hqx
          have hkpair : kids.Pairwise (disjD g) :=
            (hperm.pairwise_iff (fun h => disjD_symm h)).mpr
              (neighbors_pairwise th idx)
          obtain ⟨hInv2, hocc2, hfq2⟩ :=
            ihf.2 kids O FQ O' FQ' h hInv hkid_hyps hkpair
          refine ⟨hInv2, ?_, ?_⟩
          · intro x i hx
            rcases hocc2 x i hx with hx' | ⟨c', hc', hr⟩
            · exact Or.inl hx'
            · exact Or.inr (Relation.ReflTransGen.head (hstep_kids c' hc') hr)
          · intro q hq
            rcases hfq2 q hq with hq' | ⟨c', hc', hr⟩
            · exact Or.inl hq'
            · exact Or.inr (Relation.TransGen.head' (hstep_kids c' hc') hr)
    · -- visitKids at fuel f + 1
      intro kids O FQ O' FQ' h hInv hkidh hkpair
      cases kids with
      | nil =>
        rw [visitKids] at h
        cases h
        exact ⟨hInv, fun x i hx => Or.inl hx, fun q hq => Or.inl hq⟩
      | cons c cs =>
        rw [visitKids] at h
        have hcd := hkidh c (List.mem_cons_self c cs)
        have hcs_pair := List.pairwise_cons.mp hkpair
        split at h
        · -- floating child: deferred
          have hInv1 : INV g O (FQ ++ [c]) := by
            refine ⟨hInv.1, ?_, ?_⟩
            · intro q hq
              rcases List.mem_append.mp hq with hq' | hq'
              · exact hInv.2.1 q hq'
              · rcases List.mem_singleton.mp hq' with rfl
                exact hcd.1
            · refine List.pairwise_append.mpr ⟨hInv.2.2,
                List.pairwise_singleton _ _, ?_⟩
              intro q hq y hy
              rcases List.mem_singleton.mp hy with rfl
              exact disjD_symm (hcd.2 q hq)
          have hkidh' : ∀ c' ∈ cs, descFree g c' O ∧
              ∀ q ∈ FQ ++ [c], disjD g c' q := by
            intro c' hc'
            refine ⟨(hkidh c' (List.mem_cons_of_mem c hc')).1, ?_⟩
            intro q hq
            rcases List.mem_append.mp hq with hq' | hq'
            · exact (hkidh c' (List.mem_cons_of_mem c hc')).2 q hq'
            · rcases List.mem_singleton.mp hq' with rfl
              exact disjD_symm (hcs_pair.1 c' hc')
          obtain ⟨hInv2, hocc2, hfq2⟩ :=
            ihf.2 cs O (FQ ++ [c]) O' FQ' h hInv1 hkidh' hcs_pair.2
          refine ⟨hInv2, ?_, ?_⟩
          · intro x i hx
            rcases hocc2 x i hx with hx' | ⟨c', hc', hr⟩
            · exact Or.inl hx'
            · exact Or.inr ⟨c', List.mem_cons_of_mem c hc', hr⟩
          · intro q hq
            rcases hfq2 q hq with hq' | ⟨c', hc', hr⟩
            · rcases List.mem_append.mp hq' with hq'' | hq''
              · exact Or.inl hq''
              · rcases List.mem_singleton.mp hq'' with rfl
                exact Or.inr ⟨q, List.mem_cons_self q cs,
                  Relation.ReflTransGen.refl⟩
            · exact Or.inr ⟨c', List.mem_cons_of_mem c hc', hr⟩
        · -- visited child
          split at h
          · rename_i d2 f2 hv
            obtain ⟨hInv1, hocc1, hfq1⟩ :=
              ihf.1 c O FQ d2 f2 hv hInv hcd.1 hcd.2
            have hkidh' : ∀ c' ∈ cs, descFree g c' d2 ∧
                ∀ q ∈ f2, disjD g c' q := by
              intro c' hc'
              have hdisj_cc' : disjD g c c' := hcs_pair.1 c' hc'
              constructor
              · intro x i hx hr
                rcases hocc1 x i hx with hx' | hr'
                · exact (hkidh c' (List.mem_cons_of_mem c hc')).1 x i hx' hr
                · exact hdisj_cc' x hr' hr
              · intro q hq x hc'x hqx
                rcases hfq1 q hq with hq' | hr'
                · exact (hkidh c' (List.mem_cons_of_mem c hc')).2 q hq' x
                    hc'x hqx
                · exact hdisj_cc' x (hr'.to_reflTransGen.trans hqx) hc'x
            obtain ⟨hInv2, hocc2, hfq2⟩ :=
              ihf.2 cs d2 f2 O' FQ' h hInv1 hkidh' hcs_pair.2
            refine ⟨hInv2, ?_, ?_⟩
            · intro x i hx
              rcases hocc2 x i hx with hx' | ⟨c', hc', hr⟩
              · rcases hocc1 x i hx' with hx'' | hr'
                · exact Or.inl hx''
                · exact Or.inr ⟨c, List.mem_cons_self c cs, hr'⟩
              · exact Or.inr ⟨c', List.mem_cons_of_mem c hc', hr⟩
            · intro q hq
              rcases hfq2 q hq with hq' | ⟨c', hc', hr⟩
              · rcases hfq1 q hq' with hq'' | hr'
                · exact Or.inl hq''
                · exact Or.inr ⟨c, List.mem_cons_self c cs, hr'.to_reflTransGen⟩
              · exact Or.inr ⟨c', List.mem_cons_of_mem c hc', hr⟩
          · rename_i hne
            exact absurd h (hne O' FQ')

/-- Draining the floating deque preserves the order invariant. -/
theorem drain_inv {g : Graph} (th : TreeHyps g) (mc mk : Option Nat) :
    ∀ (f : Nat) (FQ : List Nat) (O Ofin : List Visitable),
      drainFloats g mc mk f FQ O = Res.ok Ofin →
      INV g O FQ → ordOK g Ofin := by
  intro f
  induction f with
  | zero =>
    intro FQ O Ofin h
    rw [drainFloats] at h
    cases h
  | succ f ih =>
    intro FQ O Ofin h hInv
    cases FQ with
    | nil =>
      rw [drainFloats] at h
      cases h
      exact hInv.1
    | cons q rest =>
      rw [drainFloats] at h
      split at h
      · rename_i d2 f2 hv
        have hpc := List.pairwise_cons.mp hInv.2.2
        have hInv' : INV g O rest :=
          ⟨hInv.1, fun q' hq' => hInv.2.1 q' (List.mem_cons_of_mem q hq'),
            hpc.2⟩
        obtain ⟨hInv2, -, -⟩ :=
          (visit_inv th mc mk (f + 1)).1 q O rest d2 f2 hv hInv'
            (hInv.2.1 q (List.mem_cons_self q rest)) hpc.1
        exact ih f2 d2 Ofin h hInv2
      · cases h
      · cases h

theorem INV_nil {g : Graph} : INV g [] [] := by
  refine ⟨?_, ?_, List.Pairwise.nil⟩
  · intro a d i j _ ha _
    unfold occW at ha
    simp at ha
  · intro q hq
    simp at hq

/-- The invariant is stable under permuting the floating deque. -/
theorem INV_perm {g : Graph} {O : List Visitable} {FQ FQ' : List Nat}
    (hp : FQ'.Perm FQ) (h : INV g O FQ) : INV g O FQ' :=
  ⟨h.1, fun q hq => h.2.1 q (hp.mem_iff.mp hq),
    (hp.pairwise_iff (fun hh => disjD_symm hh)).mpr h.2.2⟩

/-- **C1.**  For every graph whose edges establish a tree of touched
widgets (only `Child` edges, a single incoming edge per node, acyclic —
the shape any sequence of `pre_update_cache` calls establishing a tree
produces, see `claim_C2`), every completed depth-order recomputation
places every ancestor (via `Child` edges) strictly before every one of
its descendants — including descendants deferred as floating, which are
visited in the drain phase. -/
theorem claim_C1 {g : Graph} {mc mk : Option Nat} {fuel : Nat}
    {ord : List Visitable} (th : TreeHyps g)
    (h : updateDepthOrder g mc mk fuel = Res.ok ord) :
    ∀ a d i j, Relation.TransGen (childStepR g) a d →
      ord.get? i = some (Visitable.Widget a) →
      ord.get? j = some (Visitable.Widget d) → i < j := by
  intro a d i j htg ha hd
  unfold updateDepthOrder at h
  split at h
  · rename_i O1F1 O1 F1 hvisit
    split at h
    · cases h
    · rename_i F1s hsortf
      obtain ⟨hInv1, -, -⟩ :=
        (visit_inv th mc mk fuel).1 g.root [] [] O1 F1 hvisit INV_nil
          (fun x i hx => by unfold occW at hx; simp at hx)
          (fun q hq => by simp at hq)
      have hInv1s : INV g O1 F1s := INV_perm (sortRust_perm hsortf) hInv1
      have hord := drain_inv th mc mk fuel F1s O1 ord h hInv1s
      have htg' : Relation.TransGen (stepR g.edges) a d :=
        htg.mono (fun x y ⟨e, he, hs, ht, _⟩ => ⟨e, he, hs, ht⟩)
      exact hord a d i j htg' ha hd
  · cases h
  · cases h

theorem single_in_of_nodup {E : List EdgeT}
    (h : (E.map EdgeT.tgt).Nodup) :
    ∀ b, E.countP (fun e => e.tgt == b) ≤ 1 := by
  intro b
  have h1 : E.countP (fun e => e.tgt == b) =
      (E.map EdgeT.tgt).countP (fun t => t == b) := by
    rw [List.countP_map]
    rfl
  rw [h1, ← List.count]
  exact List.nodup_iff_count_le_one.mp h b

/-- Root 0, widget 1 (child of the root), widget 2 (child of 1), and a
floating widget 3 (child of the root). -/
def c1g : Graph :=
  { nodes := [Node.Root, Node.Widget (exContainer (some 0) none none true),
              Node.Widget (exContainer (some 0) none none true),
              Node.Widget (exContainer (some 0) (some ⟨5⟩) none true)]
    edges := [⟨0, 1, EdgeKind.Child⟩, ⟨1, 2, EdgeKind.Child⟩,
              ⟨0, 3, EdgeKind.Child⟩]
    index_map := []
    root := 0 }

theorem c1g_tree : TreeHyps c1g := by
  refine ⟨by decide, single_in_of_nodup (by decide), acyclicR_iff.mpr (by decide)⟩

/-- Shape of a completed visit: the order and the deque only grow; every
new widget entry is the visited node itself or a non-floating widget
(floating children are diverted, never visited in place); every new
deque entry is a floating widget; and a visited updated widget's entry
heads its segment. -/
theorem visit_shape (g : Graph) (mc mk : Option Nat) :
    ∀ f : Nat,
      (∀ idx O FQ O' FQ',
        visitByDepth g mc mk f idx O FQ = Res.ok (O', FQ') →
        ∃ Δ Φ, O' = O ++ Δ ∧ FQ' = FQ ++ Φ ∧
          (∀ n, Visitable.Widget n ∈ Δ →
            (n = idx ∧ ∃ cc, g.nodes.get? idx = some (Node.Widget cc)) ∨
              maybeIsFloatingB g n ≠ some true) ∧
          (∀ q ∈ Φ, maybeIsFloatingB g q = some true) ∧
          (∀ c, g.nodes.get? idx = some (Node.Widget c) →
            c.is_updated = true → Δ.get? 0 = some (Visitable.Widget idx))) ∧
      (∀ kids O FQ O' FQ',
        visitKids g mc mk f kids O FQ = Res.ok (O', FQ') →
        ∃ Δ Φ, O' = O ++ Δ ∧ FQ' = FQ ++ Φ ∧
          (∀ n, Visitable.Widget n ∈ Δ → maybeIsFloatingB g n ≠ some true) ∧
          (∀ q ∈ Φ, maybeIsFloatingB g q = some true)) := by
  intro f
  induction f with
  | zero =>
    constructor
    · intro idx O FQ O' FQ' h
      rw [visitByDepth] at h
      cases h
    · intro kids O FQ O' FQ' h
      rw [visitKids] at h
      cases h
  | succ f ihf =>
    constructor
    · intro idx O FQ O' FQ' h
      rw [visitByDepth] at h
      split at h
      · cases h
      · -- Placeholder
        rename_i hget
        cases h
        refine ⟨[], [], by simp, by simp, by simp, by simp, ?_⟩
        intro c hc
        rw [hget] at hc
        cases hc
      · -- Widget
        rename_i c hget
        split at h
        · rename_i hupd
          split at h
          · cases h
          · rename_i kids hsort
            split at h
            · rename_i d2 f2 hkids
              obtain ⟨Δk, Φk, hOk, hFk, hnf, hfl⟩ :=
                ihf.2 kids _ FQ d2 f2 hkids
              split at h
              · cases h
                refine ⟨Visitable.Widget idx ::
                    (Δk ++ [Visitable.Scrollbar idx]), Φk, ?_, hFk, ?_, hfl, ?_⟩
                · rw [hOk]; simp
                · intro n hn
                  rcases List.mem_cons.mp hn with hn | hn
                  · cases hn; exact Or.inl ⟨rfl, c, hget⟩
                  · rcases List.mem_append.mp hn with hn | hn
                    · exact Or.inr (hnf n hn)
                    · simp at hn
                · intro c' _ _
                  rfl
              · cases h
                refine ⟨Visitable.Widget idx :: Δk, Φk, ?_, hFk, ?_, hfl, ?_⟩
                · rw [hOk]; simp
                · intro n hn
                  rcases List.mem_cons.mp hn with hn | hn
                  · cases hn; exact Or.inl ⟨rfl, c, hget⟩
                  · exact Or.inr (hnf n hn)
                · intro c' _ _
                  rfl
            · rename_i hne
              exact absurd h (hne O' FQ')
        · rename_i hupd
          cases h
          refine ⟨[], [], by simp, by simp, by simp, by simp, ?_⟩
          intro c' hc' hupd'
          rw [hget] at hc'
          cases hc'
          exact absurd hupd' hupd
      · -- Root
        rename_i hget
        split at h
        · cases h
        · rename_i kids hsort
          obtain ⟨Δk, Φk, hOk, hFk, hnf, hfl⟩ := ihf.2 kids O FQ O' FQ' h
          refine ⟨Δk, Φk, hOk, hFk, ?_, hfl, ?_⟩
          · intro n hn
            exact Or.inr (hnf n hn)
          · intro c hc
            rw [hget] at hc
            cases hc
    · intro kids O FQ O' FQ' h
      cases kids with
      | nil =>
        rw [visitKids] at h
        cases h
        exact ⟨[], [], by simp, by simp, by simp, by simp⟩
      | cons c cs =>
        rw [visitKids] at h
        split at h
        · -- floating child deferred
          rename_i hflc
          obtain ⟨Δk, Φk, hOk, hFk, hnf, hfl⟩ :=
            ihf.2 cs O (FQ ++ [c]) O' FQ' h
          refine ⟨Δk, c :: Φk, hOk, ?_, hnf, ?_⟩
          · rw [hFk]; simp
          · intro q hq
            rcases List.mem_cons.mp hq with rfl | hq
            · exact hflc
            · exact hfl q hq
        · -- visited child
          rename_i hnotfl
          split at h
          · rename_i d2 f2 hv
            obtain ⟨Δ1, Φ1, hO1, hF1, hnf1, hfl1, hhd1⟩ :=
              ihf.1 c O FQ d2 f2 hv
            obtain ⟨Δ2, Φ2, hO2, hF2, hnf2, hfl2⟩ :=
              ihf.2 cs d2 f2 O' FQ' h
            refine ⟨Δ1 ++ Δ2, Φ1 ++ Φ2, ?_, ?_, ?_, ?_⟩
            · rw [hO2, hO1, List.append_assoc]
            · rw [hF2, hF1, List.append_assoc]
            · intro n hn
              rcases List.mem_append.mp hn with hn | hn
              · rcases hnf1 n hn with ⟨rfl, -⟩ | hne
                · exact hnotfl
                · exact hne
              · exact hnf2 n hn
            · intro q hq
              rcases List.mem_append.mp hq with hq | hq
              · exact hfl1 q hq
              · exact hfl2 q hq
          · rename_i hne
            exact absurd h (hne O' FQ')

theorem claim_C1_witness : (0 : Nat) < 1 := by
  have hupd : updateDepthOrder c1g none none 9 =
      Res.ok [Visitable.Widget 1, Visitable.Widget 2, Visitable.Widget 3] := by
    decide
  have htg : Relation.TransGen (childStepR c1g) 1 2 :=
    Relation.TransGen.single ⟨⟨1, 2, EdgeKind.Child⟩, by decide, rfl, rfl, rfl⟩
  exact claim_C1 c1g_tree hupd 1 2 0 1 htg (by decide) (by decide)

/-! ### Claim C5: floating widgets are deferred and drained in ascending
`time_last_clicked` order -/

/-- The `time_last_clicked` sort key used on the floating deque (`0` for
nodes that are not floating widgets; the comparator is only ever applied
to floating widgets, where the default is irrelevant). -/
def timeKey (g : Graph) (q : Nat) : Nat :=
  match g.nodes.get? q with
  | some (Node.Widget c) =>
    match c.maybe_floating with
    | some fl => fl.time_last_clicked
    | _ => 0
  | _ => 0

/-- On floating widgets, `floatCmp` is exactly comparison of `timeKey`s. -/
theorem floatCmp_key {g : Graph} {x z : Nat}
    (hx : maybeIsFloatingB g x = some true)
    (hz : maybeIsFloatingB g z = some true) :
    floatCmp g x z = some (compare (timeKey g x) (timeKey g z)) := by
  unfold maybeIsFloatingB at hx hz
  split at hx
  · rename_i cx hgx
    split at hz
    · rename_i cz hgz
      have hx' : cx.maybe_floating.isSome = true := by
        have := Option.some.inj hx
        exact this
      have hz' : cz.maybe_floating.isSome = true := by
        have := Option.some.inj hz
        exact this
      rcases Option.isSome_iff_exists.mp hx' with ⟨flx, hflx⟩
      rcases Option.isSome_iff_exists.mp hz' with ⟨flz, hflz⟩
      unfold floatCmp timeKey
      rw [hgx, hgz]
      simp only [hflx, hflz]
    · cases hz
  · cases hx

/-- Draining the floating deque only appends to the order, and the entry
of an updated-widget float at deque position `i` lands at a position `p`
past the pre-existing order such that every widget entry in the appended
part up to `p` is either non-floating or one of the first `i + 1` deque
members. -/
theorem drain_seg (g : Graph) (mc mk : Option Nat) :
    ∀ fuel FQ O Ofin,
      drainFloats g mc mk fuel FQ O = Res.ok Ofin →
      (∃ Δ, Ofin = O ++ Δ) ∧
      (∀ i q c, FQ.get? i = some q →
        g.nodes.get? q = some (Node.Widget c) → c.is_updated = true →
        ∃ p, Ofin.get? p = some (Visitable.Widget q) ∧ O.length ≤ p ∧
          (∀ p2 n, O.length ≤ p2 → p2 ≤ p →
            Ofin.get? p2 = some (Visitable.Widget n) →
            n ∈ FQ.take (i + 1) ∨ maybeIsFloatingB g n ≠ some true)) := by
  intro fuel
  induction fuel with
  | zero =>
    intro FQ O Ofin h
    rw [drainFloats] at h
    cases h
  | succ fuel ih =>
    intro FQ O Ofin h
    cases FQ with
    | nil =>
      rw [drainFloats] at h
      cases h
      refine ⟨⟨[], by simp⟩, ?_⟩
      intro i q c hq
      rw [List.get?_nil] at hq
      cases hq
    | cons q0 rest =>
      rw [drainFloats] at h
      split at h
      · rename_i d2 f2 hv
        obtain ⟨Δ0, Φ0, hd2, hf2, hnf0, hfl0, hhd0⟩ :=
          (visit_shape g mc mk (fuel + 1)).1 q0 O rest d2 f2 hv
        obtain ⟨⟨Δr, hOfin⟩, hpos⟩ := ih f2 d2 Ofin h
        have hOfin' : Ofin = O ++ (Δ0 ++ Δr) := by
          rw [hOfin, hd2, List.append_assoc]
        refine ⟨⟨Δ0 ++ Δr, hOfin'⟩, ?_⟩
        intro i q c hq hw hupd
        cases i with
        | zero =>
          rw [List.get?_cons_zero] at hq
          cases hq
          have hhead : Δ0.get? 0 = some (Visitable.Widget q0) := hhd0 c hw hupd
          have hlen0 : 0 < Δ0.length := by
            cases hΔ : Δ0 with
            | nil => rw [hΔ] at hhead; cases hhead
            | cons a l => simp [hΔ]
          refine ⟨O.length, ?_, le_refl _, ?_⟩
          · rw [hOfin', List.get?_append_right (le_refl O.length),
              Nat.sub_self, List.get?_append hlen0]
            exact hhead
          · intro p2 n h1 h2 hent
            have hp2 : p2 = O.length := le_antisymm h2 h1
            subst hp2
            rw [hOfin', List.get?_append_right (le_refl O.length),
              Nat.sub_self, List.get?_append hlen0, hhead] at hent
            cases hent
            exact Or.inl (by simp)
        | succ i' =>
          rw [List.get?_cons_succ] at hq
          have hi' : i' < rest.length := List.get?_eq_some.mp hq |>.1
          have hq' : f2.get? i' = some q := by
            rw [hf2, List.get?_append hi']
            exact hq
          obtain ⟨p, hp, hge, hchar⟩ := hpos i' q c hq' hw hupd
          have hOd2 : O.length ≤ d2.length := by
            rw [hd2, List.length_append]
            exact Nat.le_add_right _ _
          refine ⟨p, hp, le_trans hOd2 hge, ?_⟩
          intro p2 n h1 h2 hent
          rcases le_or_lt d2.length p2 with hcase | hcase
          · rcases hchar p2 n hcase h2 hent with hmem | hnfl
            · refine Or.inl ?_
              have htake : f2.take (i' + 1) = rest.take (i' + 1) := by
                rw [hf2, List.take_append_eq_append_take,
                  Nat.sub_eq_zero_of_le hi', List.take_zero, List.append_nil]
              rw [htake] at hmem
              rw [List.take_succ_cons]
              exact List.mem_cons_of_mem _ hmem
            · exact Or.inr hnfl
          · have hent' : Δ0.get? (p2 - O.length) = some (Visitable.Widget n) := by
              have h1' : d2.get? p2 = some (Visitable.Widget n) := by
                rw [hOfin, List.get?_append hcase] at hent
                exact hent
              rw [hd2, List.get?_append_right h1] at h1'
              exact h1'
            have hmem : Visitable.Widget n ∈ Δ0 := by
              rcases List.get?_eq_some.mp hent' with ⟨hlt, hEq⟩
              exact hEq ▸ List.get_mem _ _ _
            rcases hnf0 n hmem with ⟨rfl, -⟩ | hnfl
            · exact Or.inl (by rw [List.take_succ_cons]; exact List.mem_cons_self _ _)
            · exact Or.inr hnfl
      · cases h
      · cases h

/-- The spec's tooltip scenario: a normal widget (node 1) and two
floating widgets — a tooltip (node 2) last clicked at time 5 and an older
overlay (node 3) last clicked at time 3 — all children of the root. -/
def c5g : Graph :=
  { nodes := [Node.Root, Node.Widget (exContainer (some 0) none none true),
              Node.Widget (exContainer (some 0) (some ⟨5⟩) none true),
              Node.Widget (exContainer (some 0) (some ⟨3⟩) none true)]
    edges := [⟨0, 1, EdgeKind.Child⟩, ⟨0, 2, EdgeKind.Child⟩,
              ⟨0, 3, EdgeKind.Child⟩]
    index_map := []
    root := 0 }

/-- Claim C5: in a completed depth-order recomputation, no floating
widget is visited in place in the main tree walk (it is diverted into the
deque instead), the diverted deque holds exactly floating widgets, the
deque is drained sorted by ascending `time_last_clicked`, the drained
floating subtrees all come after the complete main-tree order, and the
entry of a less-recently-clicked float precedes every entry of any float
sorted after it. -/
theorem claim_C5 (g : Graph) (mc mk : Option Nat) (fuel : Nat)
    (ord O1 : List Visitable) (F1 SF : List Nat)
    (hroot : g.nodes.get? g.root = some Node.Root)
    (hv : visitByDepth g mc mk fuel g.root [] [] = Res.ok (O1, F1))
    (hs : sortRust (floatCmp g) F1 = some SF)
    (h : updateDepthOrder g mc mk fuel = Res.ok ord)
    (hnd : SF.Nodup) :
    (∀ n, Visitable.Widget n ∈ O1 → maybeIsFloatingB g n ≠ some true) ∧
    (∀ q ∈ F1, maybeIsFloatingB g q = some true) ∧
    SF.Perm F1 ∧
    SF.Pairwise (fun a b => timeKey g a ≤ timeKey g b) ∧
    (∃ Δ, ord = O1 ++ Δ) ∧
    (∀ i j q1 q2 c1, i < j → SF.get? i = some q1 → SF.get? j = some q2 →
      g.nodes.get? q1 = some (Node.Widget c1) → c1.is_updated = true →
      ∃ p1, ord.get? p1 = some (Visitable.Widget q1) ∧
        ∀ p2, ord.get? p2 = some (Visitable.Widget q2) → p1 < p2) := by
  obtain ⟨Dv, Pv, hO1, hF1, hnfv, hflv, -⟩ :=
    (visit_shape g mc mk fuel).1 g.root [] [] O1 F1 hv
  rw [List.nil_append] at hO1 hF1
  subst hO1
  subst hF1
  have hA : ∀ n, Visitable.Widget n ∈ O1 → maybeIsFloatingB g n ≠ some true := by
    intro n hn
    rcases hnfv n hn with ⟨rfl, cc, hcc⟩ | hne
    · rw [hroot] at hcc
      cases hcc
    · exact hne
  have hdrain : drainFloats g mc mk fuel SF O1 = Res.ok ord := by
    rw [updateDepthOrder, hv] at h
    simp only [hs] at h
    exact h
  have hcmp : ∀ x ∈ F1, ∀ z ∈ F1,
      floatCmp g x z = some (compare (timeKey g x) (timeKey g z)) := by
    intro x hx z hz
    exact floatCmp_key (hflv x hx) (hflv z hz)
  obtain ⟨out, hout, hperm, hsort⟩ := sortRust_key hcmp
  have hSF : out = SF := Option.some.inj (hout.symm.trans hs)
  rw [hSF] at hperm hsort
  obtain ⟨⟨Δd, hΔd⟩, hpos⟩ := drain_seg g mc mk fuel SF O1 ord hdrain
  refine ⟨hA, hflv, hperm, hsort, ⟨Δd, hΔd⟩, ?_⟩
  intro i j q1 q2 c1 hij hi hj hw1 hupd1
  have hq2fl : maybeIsFloatingB g q2 = some true := by
    refine hflv q2 (hperm.subset ?_)
    rcases List.get?_eq_some.mp hj with ⟨hlt, hEq⟩
    exact hEq ▸ List.get_mem _ _ _
  obtain ⟨p1, hp1, hge1, hchar⟩ := hpos i q1 c1 hi hw1 hupd1
  refine ⟨p1, hp1, ?_⟩
  intro p2 hent
  by_contra hle
  push_neg at hle
  rcases lt_or_ge p2 O1.length with hcase | hcase
  · have : Visitable.Widget q2 ∈ O1 := by
      rw [hΔd, List.get?_append hcase] at hent
      rcases List.get?_eq_some.mp hent with ⟨hlt, hEq⟩
      exact hEq ▸ List.get_mem _ _ _
    exact hA q2 this hq2fl
  · rcases hchar p2 q2 hcase hle hent with hmem | hnfl
    · rcases List.mem_iff_get?.mp hmem with ⟨k, hk⟩
      have hklen : k < (SF.take (i + 1)).length :=
        (List.get?_eq_some.mp hk).1
      have hki : k < i + 1 := lt_of_lt_of_le hklen (by
        rw [List.length_take]
        exact min_le_left _ _)
      have hkSF : SF.get? k = some q2 := by
        rw [List.get?_take hki] at hk
        exact hk
      have hkj : k = j := by
        refine List.get?_inj ?_ hnd (hkSF.trans hj.symm)
        exact (List.get?_eq_some.mp hkSF).1
      subst hkj
      exact absurd hij (by omega)
    · exact hnfl hq2fl

/-! ### Claim C7: scroll-offset resolution -/

/-- The one-step parent relation walked by `scroll_offset`'s
`child_edge_traversal` loop: `b` is the `Child`-edge parent of `a`. -/
def parentStep (g : Graph) (a b : Nat) : Prop :=
  maybeIncomingChildEdge g a = some b

/-- If no strict `Child`-edge ancestor of `n` is a scrollable widget, the
scroll-offset loop started anywhere on `n`'s ancestor chain can only ever
return the zero offset it started with. -/
theorem scrollLoop_noscroll_anc {g : Graph} {n : Nat}
    (hns : ∀ m c, Relation.TransGen (parentStep g) n m →
      g.nodes.get? m = some (Node.Widget c) → c.maybe_scrolling = none) :
    ∀ fuel m, Relation.ReflTransGen (parentStep g) n m →
      ∀ r, scrollLoop g fuel m (0, 0) = some r → r = (0, 0) := by
  intro fuel
  induction fuel with
  | zero =>
    intro m _ r h
    rw [scrollLoop] at h
    cases h
  | succ f ih =>
    intro m hrm r h
    rw [scrollLoop] at h
    split at h
    · cases h
      rfl
    · rename_i p hp
      split at h
      · cases h
      · cases h
        rfl
      · have hTG : Relation.TransGen (parentStep g) n p :=
          Relation.TransGen.tail' hrm hp
        have hrp : Relation.ReflTransGen (parentStep g) n p :=
          hrm.tail hp
        cases hgp : g.nodes.get? p with
        | none =>
          simp only [hgp] at h
          exact ih p hrp r h
        | some node =>
          cases node with
          | Widget c =>
            simp only [hgp] at h
            have hstep : scrollStep c (0, 0) = (0, 0) := by
              unfold scrollStep
              rw [hns p c hTG hgp]
            rw [hstep] at h
            exact ih p hrp r h
          | Root =>
            simp only [hgp] at h
            exact ih p hrp r h
          | Placeholder =>
            simp only [hgp] at h
            exact ih p hrp r h

/-- A scrollable parent (node 1) holding a child widget (node 2): the
vertical scrollbar sits at fraction `1 / 2` of a total content length of
`200` against a visible kid-area height of `100`; the horizontal bar is
parked at offset `0`. -/
def c7parent : Container :=
  { exContainer (some 0) none
      (some { maybe_vertical := some { offset := 1, max_offset := 2, total_length := 200 }
              maybe_horizontal := some { offset := 0, max_offset := 1, total_length := 100 } })
      true with
    kid_area := { xy := (0, 0), dim := (100, 100) } }

def c7g : Graph :=
  { nodes := [Node.Root, Node.Widget c7parent,
              Node.Widget (exContainer (some 0) none none true)],
    edges := [⟨1, 2, EdgeKind.Child⟩], index_map := [], root := 0 }

/-- Counterexample to claim C7 as stated: the vertical contribution of a
scrollable ancestor is ADDED to `y` (`offset[1] += y_offset` in the
source), so for the spec's own numbers — fraction `1 / 2`, total length
`200`, kid height `100` — the resolved offset is `(0, 50)`: the magnitude
is the promised `50`, but `y` increases instead of decreasing. -/
theorem claim_C7_counterexample :
    scrollOffset c7g (GIdx.nodeIdx 2) 9 = some (0, 50) ∧ (0 : ℚ) < 50 := by
  refine ⟨?_, by norm_num⟩
  have h1 : maybeIncomingChildEdge c7g 2 = some 1 := by decide
  have h2 : maybeIncomingRelEdge c7g 2 = none := by decide
  have h3 : c7g.nodes.get? 1 = some (Node.Widget c7parent) := by decide
  have h4 : maybeIncomingChildEdge c7g 1 = none := by decide
  unfold scrollOffset
  simp only [toNodeIndex]
  rw [scrollLoop]
  simp only [h1]
  rw [relMatchesParent]
  simp only [h2, h3]
  rw [scrollLoop]
  simp only [h4]
  unfold scrollStep
  norm_num [c7parent, exContainer]

/-- Claim C7 (corrected): an identifier absent from the graph resolves to
the zero offset; a widget none of whose `Child`-edge ancestors is a
scrollable widget resolves to the zero offset; each traversal step onto a
widget parent accumulates that ancestor's `scrollStep` contribution into
the running offset (covering arbitrarily nested scrollable ancestors);
the per-ancestor contribution is, per axis and for any bar configuration,
the fractional offset times (total length − visible kid-area length) —
subtracted from `x` for the horizontal bar but ADDED to `y` for the
vertical bar (not subtracted, as the spec's sign convention claims) and
zero for a missing bar; and for the spec's example of a widget directly
inside a scrollable top-level parent, the resolved offset is the single
contribution with `y = +50`. -/
theorem claim_C7 (g : Graph) (idx : GIdx) (fuel : Nat) :
    (toNodeIndex g.index_map idx = none → scrollOffset g idx fuel = some (0, 0)) ∧
    (∀ n, toNodeIndex g.index_map idx = some n →
      (∀ m c, Relation.TransGen (parentStep g) n m →
        g.nodes.get? m = some (Node.Widget c) → c.maybe_scrolling = none) →
      ∀ r, scrollOffset g idx fuel = some r → r = (0, 0)) ∧
    (∀ f2 m p c off, maybeIncomingChildEdge g m = some p →
      maybeIncomingRelEdge g m = none →
      g.nodes.get? p = some (Node.Widget c) →
      scrollLoop g (f2 + 1) m off = scrollLoop g f2 p (scrollStep c off)) ∧
    (∀ c off, c.maybe_scrolling = none → scrollStep c off = off) ∧
    (∀ c s off, c.maybe_scrolling = some s →
      (scrollStep c off).2 =
        (match s.maybe_vertical with
         | some vbar => off.2 + vbar.offset / vbar.max_offset *
             (vbar.total_length - c.kid_area.dim.2)
         | none => off.2) ∧
      (scrollStep c off).1 =
        (match s.maybe_horizontal with
         | some hbar => off.1 - hbar.offset / hbar.max_offset *
             (hbar.total_length - c.kid_area.dim.1)
         | none => off.1)) ∧
    (∀ n p c vbar hbar,
      toNodeIndex g.index_map idx = some n →
      maybeIncomingChildEdge g n = some p →
      maybeIncomingRelEdge g n = none →
      g.nodes.get? p = some (Node.Widget c) →
      c.maybe_scrolling =
        some { maybe_vertical := some vbar, maybe_horizontal := some hbar } →
      maybeIncomingChildEdge g p = none →
      2 ≤ fuel →
      scrollOffset g idx fuel =
        some (-(hbar.offset / hbar.max_offset *
                (hbar.total_length - c.kid_area.dim.1)),
              vbar.offset / vbar.max_offset *
                (vbar.total_length - c.kid_area.dim.2))) := by
  refine ⟨?_, ?_, ?_, ?_, ?_, ?_⟩
  · intro h
    unfold scrollOffset
    rw [h]
  · intro n hres hns r h
    unfold scrollOffset at h
    rw [hres] at h
    exact scrollLoop_noscroll_anc hns fuel n Relation.ReflTransGen.refl r h
  · intro f2 m p c off hchild hrel hgp
    rw [scrollLoop]
    simp only [hchild]
    rw [relMatchesParent]
    simp only [hrel, hgp]
  · intro c off h
    unfold scrollStep
    rw [h]
  · intro c s off hsc
    constructor
    · unfold scrollStep
      simp only [hsc]
      cases hv : s.maybe_vertical <;> cases hh : s.maybe_horizontal <;>
        simp [hv, hh]
    · unfold scrollStep
      simp only [hsc]
      cases hv : s.maybe_vertical <;> cases hh : s.maybe_horizontal <;>
        simp [hv, hh]
  · intro n p c vbar hbar hres hchild hrel hgp hsc hpc hfuel
    obtain ⟨k, hk⟩ : ∃ k, fuel = k + 2 := ⟨fuel - 2, by omega⟩
    subst hk
    unfold scrollOffset
    simp only [hres]
    rw [scrollLoop]
    simp only [hchild]
    rw [relMatchesParent]
    simp only [hrel, hgp]
    rw [scrollLoop]
    simp only [hpc]
    unfold scrollStep
    rw [hsc]
    simp

theorem claim_C7_witness :
    scrollOffset c7g (GIdx.nodeIdx 2) 9 =
      some (-(0 / 1 * (100 - 100)), 1 / 2 * (200 - 100)) :=
  (claim_C7 c7g (GIdx.nodeIdx 2) 9).2.2.2.2.2 2 1 c7parent
    { offset := 1, max_offset := 2, total_length := 200 }
    { offset := 0, max_offset := 1, total_length := 100 }
    (by decide) (by decide) (by decide) (by decide) (by decide) (by decide)
    (by omega)

/-! ### Claim C6: second `pre_update_cache` on the same identifier -/

/-- Setting a widget's parent never touches existing nodes: at most one
placeholder (for a not-yet-seen parent id) is appended. -/
theorem setParent_nodes {g g1 : Graph} {idx : GIdx} {mp : Option GIdx}
    (h : setParentForWidget g idx mp = some g1) :
    g1.nodes = g.nodes ∨ g1.nodes = g.nodes ++ [Node.Placeholder] := by
  unfold setParentForWidget at h
  split at h
  · cases h
  · split at h
    · exact Or.inl (set_edge_same h).1
    · split at h
      · exact Or.inl (set_edge_same h).1
      · split at h
        · cases h
        · exact Or.inr (set_edge_same h).1

/-- A `pre_update_cache` payload for widget id 1 with kind `k` and no
parent or relative-position reference. -/
def c6w (k : String) : PreUpdateCache :=
  { kind := k, idx := GIdx.widgetId 1, maybe_parent_idx := none,
    maybe_positioned_relatively_idx := none, xy := (0, 0), dim := (1, 1),
    depth := some 0, kid_area := { xy := (0, 0), dim := (1, 1) },
    maybe_floating := none, maybe_scrolling := none }

/-- Counterexample to claim C6 as stated: a second `pre_update_cache` on
the same identifier with a different kind does NOT panic when the cached
kind is the `"EMPTY"` escape hatch — the call succeeds. -/
theorem claim_C6_counterexample :
    (c6w "EMPTY").kind ≠ (c6w "Button").kind ∧
    ((preUpdateCache withCapacity (c6w "EMPTY")).bind
      (fun g1 => preUpdateCache g1 (c6w "Button"))).isSome = true := by
  decide

/-- Claim C6 (corrected): a second `pre_update_cache` on an identifier
already resolved to a cached `Widget` container panics on a kind mismatch
only when the cached kind is also not the `"EMPTY"` escape hatch; with
matching kinds the call overwrites the container's transient fields in
place at the same node — every other existing node is untouched, and any
node the call appends is a parent placeholder, never a second widget for
this identifier. -/
theorem claim_C6 (g : Graph) (w : PreUpdateCache) (n : Nat) (c : Container)
    (hres : toNodeIndex g.index_map w.idx = some n)
    (hn : g.nodes.get? n = some (Node.Widget c)) :
    (c.kind ≠ w.kind → c.kind ≠ "EMPTY" → preUpdateCache g w = none) ∧
    (c.kind = w.kind →
      ∀ g', preUpdateCacheNode g w = some g' →
        g'.nodes.get? n = some (Node.Widget (updateContainer c w)) ∧
        (∀ m, m ≠ n → m < g.nodes.length → g'.nodes.get? m = g.nodes.get? m) ∧
        (∀ m, g.nodes.length ≤ m →
          g'.nodes.get? m = none ∨ g'.nodes.get? m = some Node.Placeholder)) := by
  have hlen : n < g.nodes.length := (List.get?_eq_some.mp hn).1
  constructor
  · intro hka hkb
    have hnode : preUpdateCacheNode g w = none := by
      unfold preUpdateCacheNode
      simp only [hres]
      cases hsp : setParentForWidget g w.idx w.maybe_parent_idx with
      | none => rfl
      | some g1 =>
        have hg1 : g1.nodes.get? n = some (Node.Widget c) := by
          rcases setParent_nodes hsp with h1 | h1
          · rw [h1]; exact hn
          · rw [h1, List.get?_append hlen]; exact hn
        unfold preUpdateNodeAt
        simp only [hg1]
        rw [if_pos ⟨hka, hkb⟩]
    unfold preUpdateCache
    simp only [hnode]
  · intro hk g' hg'
    unfold preUpdateCacheNode at hg'
    simp only [hres] at hg'
    cases hsp : setParentForWidget g w.idx w.maybe_parent_idx with
    | none =>
      rw [hsp] at hg'
      cases hg'
    | some g1 =>
      rw [hsp] at hg'
      have hg1 : g1.nodes.get? n = some (Node.Widget c) := by
        rcases setParent_nodes hsp with h1 | h1
        · rw [h1]; exact hn
        · rw [h1, List.get?_append hlen]; exact hn
      unfold preUpdateNodeAt at hg'
      simp only [hg1] at hg'
      rw [if_neg (fun hc => hc.1 hk)] at hg'
      injection hg' with hgg
      subst hgg
      refine ⟨?_, ?_, ?_⟩
      · rw [List.get?_set_eq _ _ _, hg1]
        rfl
      · intro m hm hmlen
        rw [List.get?_set_ne _ _ (fun he => hm he.symm)]
        rcases setParent_nodes hsp with h1 | h1
        · rw [h1]
        · rw [h1, List.get?_append hmlen]
      · intro m hm
        have hmn : n ≠ m := fun he => absurd hm (by omega)
        rw [List.get?_set_ne _ _ hmn]
        rcases setParent_nodes hsp with h1 | h1
        · refine Or.inl ?_
          rw [h1]
          exact List.get?_eq_none.mpr hm
        · rcases Nat.lt_or_ge m (g.nodes.length + 1) with hm2 | hm2
          · have hmeq : m = g.nodes.length := by omega
            subst hmeq
            refine Or.inr ?_
            rw [h1, List.get?_append_right (le_refl _), Nat.sub_self]
            rfl
          · refine Or.inl ?_
            rw [h1]
            refine List.get?_eq_none.mpr ?_
            rw [List.length_append]
            simpa using hm2

/-- A graph holding widget id 1 cached with kind `"Button"` at node 1. -/
def c6g : Graph :=
  { nodes := [Node.Root, Node.Widget (newContainer (c6w "Button"))],
    edges := [⟨0, 1, EdgeKind.Child⟩], index_map := [(1, 1)], root := 0 }

theorem claim_C6_witness :
    preUpdateCache c6g (c6w "Label") = none ∧
    c6g.nodes.get? 1 =
      some (Node.Widget (updateContainer (newContainer (c6w "Button"))
        (c6w "Button"))) :=
  ⟨(claim_C6 c6g (c6w "Label") 1 (newContainer (c6w "Button"))
      (by decide) (by decide)).1 (by decide) (by decide),
   ((claim_C6 c6g (c6w "Button") 1 (newContainer (c6w "Button"))
      (by decide) (by decide)).2 rfl c6g (by decide)).1⟩

/-! ### Claim C10: `post_update_cache` is a no-op without a matching
widget node -/

/-- A graph whose only non-root node is a placeholder, mapped from widget
id 7. -/
def c10g : Graph :=
  { nodes := [Node.Root, Node.Placeholder], edges := [],
    index_map := [(7, 1)], root := 0 }

/-- Claim C10: `post_update_cache` on an identifier whose node is absent
from the graph (the identifier map cannot resolve it) or whose node is
still a `Placeholder` returns normally and leaves the entire graph
unchanged: on exactly these inputs `get_widget_mut` returns `None` — it
does not take either of its panic paths (the petgraph index panic, the
`unreachable!()` on `Root`) — and the call stores nothing. -/
theorem claim_C10 (g : Graph) (w : PostUpdateCache)
    (h : toNodeIndex g.index_map w.idx = none ∨
      ∃ n, toNodeIndex g.index_map w.idx = some n ∧
        g.nodes.get? n = some Node.Placeholder) :
    getWidget g w.idx = some none ∧ postUpdateCache g w = some g := by
  rcases h with h | ⟨n, hres, hn⟩
  · constructor
    · unfold getWidget
      simp only [h]
    · unfold postUpdateCache
      simp only [h]
  · constructor
    · unfold getWidget
      simp only [hres, hn]
    · unfold postUpdateCache
      simp only [hres, hn]

theorem claim_C10_witness :
    (getWidget c10g (GIdx.widgetId 7) = some none ∧
      postUpdateCache c10g ⟨GIdx.widgetId 7, some ()⟩ = some c10g) ∧
    (getWidget c10g (GIdx.widgetId 99) = some none ∧
      postUpdateCache c10g ⟨GIdx.widgetId 99, some ()⟩ = some c10g) :=
  ⟨claim_C10 c10g ⟨GIdx.widgetId 7, some ()⟩
      (Or.inr ⟨1, by decide, by decide⟩),
   claim_C10 c10g ⟨GIdx.widgetId 99, some ()⟩ (Or.inl (by decide))⟩

/-! ### Claim C4: sibling order in the computed depth order -/

/-- A non-floating updated widget kid gets a widget entry at a position
past the pre-existing order. -/
theorem visitKids_entry (g : Graph) (mc mk : Option Nat) :
    ∀ fuel kids O FQ O2 FQ2,
      visitKids g mc mk fuel kids O FQ = Res.ok (O2, FQ2) →
      ∀ i x cx, kids.get? i = some x →
        maybeIsFloatingB g x ≠ some true →
        g.nodes.get? x = some (Node.Widget cx) → cx.is_updated = true →
        ∃ q, O2.get? q = some (Visitable.Widget x) ∧ O.length ≤ q := by
  intro fuel
  induction fuel with
  | zero =>
    intro kids O FQ O2 FQ2 h
    rw [visitKids] at h
    cases h
  | succ fuel ih =>
    intro kids O FQ O2 FQ2 h
    cases kids with
    | nil =>
      intro i x cx hi
      rw [List.get?_nil] at hi
      cases hi
    | cons c cs =>
      rw [visitKids] at h
      intro i x cx hi hnfl hwx hux
      split at h
      · rename_i hflc
        cases i with
        | zero =>
          rw [List.get?_cons_zero] at hi
          cases hi
          exact absurd hflc hnfl
        | succ i' =>
          rw [List.get?_cons_succ] at hi
          exact ih cs O (FQ ++ [c]) O2 FQ2 h i' x cx hi hnfl hwx hux
      · cases hv : visitByDepth g mc mk fuel c O FQ with
        | ok pr =>
          obtain ⟨d2, f2⟩ := pr
          rw [hv] at h
          obtain ⟨Δ1, Φ1, hd2, -, -, -, hhd⟩ :=
            (visit_shape g mc mk fuel).1 c O FQ d2 f2 hv
          obtain ⟨Δ2, Φ2, hO2, -, -, -⟩ :=
            (visit_shape g mc mk fuel).2 cs d2 f2 O2 FQ2 h
          cases i with
          | zero =>
            rw [List.get?_cons_zero] at hi
            cases hi
            have hhead : Δ1.get? 0 = some (Visitable.Widget c) := hhd cx hwx hux
            have hlen1 : 0 < Δ1.length := by
              cases hd : Δ1 with
              | nil => rw [hd] at hhead; cases hhead
              | cons a l => simp [hd]
            refine ⟨O.length, ?_, le_refl _⟩
            rw [hO2, hd2, List.append_assoc,
              List.get?_append_right (le_refl _), Nat.sub_self,
              List.get?_append hlen1]
            exact hhead
          | succ i' =>
            rw [List.get?_cons_succ] at hi
            obtain ⟨q, hq, hge⟩ := ih cs d2 f2 O2 FQ2 h i' x cx hi hnfl hwx hux
            refine ⟨q, hq, le_trans ?_ hge⟩
            rw [hd2, List.length_append]
            exact Nat.le_add_right _ _
        | panicked =>
          rw [hv] at h
          cases h
        | fuelOut =>
          rw [hv] at h
          cases h

/-- Visiting the kids in their sorted order keeps that order among the
entries of non-floating updated widget kids: an earlier kid's entry heads
its own segment and every later kid's entry lies in a later segment. -/
theorem visitKids_order (g : Graph) (mc mk : Option Nat) :
    ∀ fuel kids O FQ O2 FQ2,
      visitKids g mc mk fuel kids O FQ = Res.ok (O2, FQ2) →
      ∀ i j x y cx cy, i < j →
        kids.get? i = some x → kids.get? j = some y →
        maybeIsFloatingB g x ≠ some true →
        g.nodes.get? x = some (Node.Widget cx) → cx.is_updated = true →
        maybeIsFloatingB g y ≠ some true →
        g.nodes.get? y = some (Node.Widget cy) → cy.is_updated = true →
        ∃ p1 p2, O2.get? p1 = some (Visitable.Widget x) ∧
          O2.get? p2 = some (Visitable.Widget y) ∧ p1 < p2 := by
  intro fuel
  induction fuel with
  | zero =>
    intro kids O FQ O2 FQ2 h
    rw [visitKids] at h
    cases h
  | succ fuel ih =>
    intro kids O FQ O2 FQ2 h
    cases kids with
    | nil =>
      intro i j x y cx cy hij hi
      rw [List.get?_nil] at hi
      cases hi
    | cons c cs =>
      rw [visitKids] at h
      intro i j x y cx cy hij hi hj hnfx hwx hux hnfy hwy huy
      split at h
      · rename_i hflc
        cases i with
        | zero =>
          rw [List.get?_cons_zero] at hi
          cases hi
          exact absurd hflc hnfx
        | succ i' =>
          cases j with
          | zero => omega
          | succ j' =>
            rw [List.get?_cons_succ] at hi hj
            exact ih cs O (FQ ++ [c]) O2 FQ2 h i' j' x y cx cy
              (by omega) hi hj hnfx hwx hux hnfy hwy huy
      · cases hv : visitByDepth g mc mk fuel c O FQ with
        | ok pr =>
          obtain ⟨d2, f2⟩ := pr
          rw [hv] at h
          cases i with
          | zero =>
            rw [List.get?_cons_zero] at hi
            cases hi
            cases j with
            | zero => omega
            | succ j' =>
              rw [List.get?_cons_succ] at hj
              obtain ⟨Δ1, Φ1, hd2, -, -, -, hhd⟩ :=
                (visit_shape g mc mk fuel).1 c O FQ d2 f2 hv
              obtain ⟨Δ2, Φ2, hO2, -, -, -⟩ :=
                (visit_shape g mc mk fuel).2 cs d2 f2 O2 FQ2 h
              have hhead : Δ1.get? 0 = some (Visitable.Widget c) := hhd cx hwx hux
              have hlen1 : 0 < Δ1.length := by
                cases hd : Δ1 with
                | nil => rw [hd] at hhead; cases hhead
                | cons a l => simp [hd]
              have hp1 : O2.get? O.length = some (Visitable.Widget c) := by
                rw [hO2, hd2, List.append_assoc,
                  List.get?_append_right (le_refl _), Nat.sub_self,
                  List.get?_append hlen1]
                exact hhead
              obtain ⟨p2, hp2, hge2⟩ :=
                visitKids_entry g mc mk fuel cs d2 f2 O2 FQ2 h j' y cy
                  hj hnfy hwy huy
              refine ⟨O.length, p2, hp1, hp2, ?_⟩
              have hlt2 : O.length < d2.length := by
                rw [hd2, List.length_append]
                omega
              omega
          | succ i' =>
            cases j with
            | zero => omega
            | succ j' =>
              rw [List.get?_cons_succ] at hi hj
              exact ih cs d2 f2 O2 FQ2 h i' j' x y cx cy
                (by omega) hi hj hnfx hwx hux hnfy hwy huy
        | panicked =>
          rw [hv] at h
          cases h
        | fuelOut =>
          rw [hv] at h
          cases h

/-- **C4, amended.**  Among the children of a common parent, *when none
of the children is the mouse- or keyboard-captured node*: (i) the
comparator-sorted visitation order of the children (the order
`visit_by_depth` recurses in) succeeds whenever every child has a non-NaN
depth, is a permutation of the children, and places any sibling of
strictly greater depth strictly before any sibling of smaller depth;
(ii) in the computed depth order itself, any two non-floating updated
widget siblings with non-NaN depths appear in strictly descending depth
order — so for sibling depths 1.0 and 2.0 the depth-2.0 widget's entry
comes first.  (Floating siblings are instead deferred and reordered by
`time_last_clicked`; and the original claim's captured-last guarantee
fails: see the counterexample.) -/
theorem claim_C4 {g : Graph} {mc mk : Option Nat} {p : Nat}
    (hcap : ∀ c ∈ neighborsOut g p, mc ≠ some c ∧ mk ≠ some c)
    (hw : ∀ c ∈ neighborsOut g p, (depthOf g c).isSome) :
    (∃ out, sortRust (childCmp g mc mk) (neighborsOut g p) = some out ∧
      out.Perm (neighborsOut g p) ∧
      ∀ (x y : Nat) (qx qy : ℚ) (i j : Nat),
        depthOf g x = some qx → depthOf g y = some qy → qy < qx →
        out.get? i = some x → out.get? j = some y → i < j) ∧
    (∀ out fuel O FQ O2 FQ2,
      sortRust (childCmp g mc mk) (neighborsOut g p) = some out →
      visitKids g mc mk fuel out O FQ = Res.ok (O2, FQ2) →
      ∀ (x y : Nat) (cx cy : Container) (qx qy : ℚ),
        x ∈ neighborsOut g p → y ∈ neighborsOut g p →
        g.nodes.get? x = some (Node.Widget cx) → cx.maybe_floating = none →
        cx.is_updated = true →
        g.nodes.get? y = some (Node.Widget cy) → cy.maybe_floating = none →
        cy.is_updated = true →
        depthOf g x = some qx → depthOf g y = some qy → qy < qx →
        ∃ p1 p2, O2.get? p1 = some (Visitable.Widget x) ∧
          O2.get? p2 = some (Visitable.Widget y) ∧ p1 < p2) := by
  have h1 : ∃ out, sortRust (childCmp g mc mk) (neighborsOut g p) = some out ∧
      out.Perm (neighborsOut g p) ∧
      ∀ (x y : Nat) (qx qy : ℚ) (i j : Nat),
        depthOf g x = some qx → depthOf g y = some qy → qy < qx →
        out.get? i = some x → out.get? j = some y → i < j := by
    have hc : ∀ x ∈ neighborsOut g p, ∀ z ∈ neighborsOut g p,
        childCmp g mc mk x z =
          some (compare (-(depthOf g x).getD 0) (-(depthOf g z).getD 0)) := by
      intro x hx z hz
      obtain ⟨hmcx, hmkx⟩ := hcap x hx
      have hxw := hw x hx
      have hzw := hw z hz
      unfold childCmp
      have hbx : (mc == some x || mk == some x) = false := by
        simp only [Bool.or_eq_false_iff, beq_eq_false_iff_ne]
        exact ⟨hmcx, hmkx⟩
      rw [hbx]
      simp only [Bool.false_eq_true, if_false]
      unfold depthOf at hxw hzw ⊢
      rcases hgx : g.nodes.get? x with _ | nx <;> rw [hgx] at hxw
      · simp at hxw
      · rcases hgz : g.nodes.get? z with _ | nz <;> rw [hgz] at hzw
        · simp at hzw
        · cases nx with
          | Widget cx =>
            cases nz with
            | Widget cz =>
              dsimp only at hxw hzw ⊢
              rcases hdx : cx.depth with _ | qx
              · rw [hdx] at hxw
                simp at hxw
              · rcases hdz : cz.depth with _ | qz
                · rw [hdz] at hzw
                  simp at hzw
                · simp only [pcmpQ, Option.getD_some]
                  rw [compare_neg_q]
            | Root => simp at hzw
            | Placeholder => simp at hzw
          | Root => simp at hxw
          | Placeholder => simp at hxw
    obtain ⟨out, hout, hperm, hpair⟩ := sortRust_key hc
    refine ⟨out, hout, hperm, ?_⟩
    intro x y qx qy i j hdx hdy hlt hgi hgj
    rcases Nat.lt_trichotomy i j with h | h | h
    · exact h
    · subst h
      rw [hgi] at hgj
      cases hgj
      rw [hdx] at hdy
      cases hdy
      exact absurd hlt (lt_irrefl _)
    · have := pairwise_get? hpair h hgj hgi
      rw [hdx, hdy] at this
      simp only [Option.getD_some] at this
      exact absurd hlt (not_lt.mpr (by linarith))
  refine ⟨h1, ?_⟩
  intro out fuel O FQ O2 FQ2 hsort hkids x y cx cy qx qy hx hy hwx hfx hux
    hwy hfy huy hdx hdy hlt
  obtain ⟨out1, hout1, hperm, hord⟩ := h1
  have hoo : out1 = out := Option.some.inj (hout1.symm.trans hsort)
  subst hoo
  obtain ⟨i, hi⟩ := List.mem_iff_get?.mp (hperm.mem_iff.mpr hx)
  obtain ⟨j, hj⟩ := List.mem_iff_get?.mp (hperm.mem_iff.mpr hy)
  have hij : i < j := hord x y qx qy i j hdx hdy hlt hi hj
  have hnfx : maybeIsFloatingB g x ≠ some true := by
    unfold maybeIsFloatingB
    rw [hwx]
    simp [hfx]
  have hnfy : maybeIsFloatingB g y ≠ some true := by
    unfold maybeIsFloatingB
    rw [hwy]
    simp [hfy]
  exact visitKids_order g mc mk fuel out1 O FQ O2 FQ2 hkids i j x y cx cy
    hij hi hj hnfx hwx hux hnfy hwy huy

theorem claim_C4_witness :
    (∃ out, sortRust (childCmp c4wg none none) (neighborsOut c4wg 0) = some out ∧
      out.Perm (neighborsOut c4wg 0) ∧
      ∀ (x y : Nat) (qx qy : ℚ) (i j : Nat),
        depthOf c4wg x = some qx → depthOf c4wg y = some qy → qy < qx →
        out.get? i = some x → out.get? j = some y → i < j) ∧
    ∃ p1 p2,
      [Visitable.Widget 1, Visitable.Widget 2].get? p1 =
        some (Visitable.Widget 1) ∧
      [Visitable.Widget 1, Visitable.Widget 2].get? p2 =
        some (Visitable.Widget 2) ∧ p1 < p2 :=
  ⟨(@claim_C4 c4wg none none 0 (by decide) (by decide)).1,
   (@claim_C4 c4wg none none 0 (by decide) (by decide)).2
     [1, 2] 8 [] [] [Visitable.Widget 1, Visitable.Widget 2] []
     (by decide) (by decide) 1 2
     (exContainer (some 2) none none true) (exContainer (some 1) none none true)
     2 1 (by decide) (by decide) (by decide) (by decide) (by decide)
     (by decide) (by decide) (by decide) (by decide) (by decide) (by decide)⟩

/-! ### Claim C8: invisible widgets emit no primitives -/

/-- Modelled from the spec: an axis-aligned rectangle given by its left,
right, bottom and top bounds (the `Rect` type lives outside the core
sources). -/
structure Rect where
  l : ℚ
  r : ℚ
  b : ℚ
  t : ℚ
deriving DecidableEq, Repr

/-- Modelled from the spec: `Rect::overlap` returns the intersection of
two rectangles when they overlap in a region of positive area, and `none`
otherwise. -/
def Rect.overlap (a b : Rect) : Option Rect :=
  if max a.l b.l < min a.r b.r ∧ max a.b b.b < min a.t b.t then
    some ⟨max a.l b.l, min a.r b.r, max a.b b.b, min a.t b.t⟩
  else none

/-- The primitive payloads distinguished by `Primitives::draw` (two
representative kinds suffice for the emission model). -/
inductive PrimitiveKind where
  | Rectangle : PrimitiveKind
  | Lines : PrimitiveKind
deriving DecidableEq, Repr

/-- A render `Primitive`: its kind, the scissor rectangle from the crop
stack, and the widget's bounding rectangle. -/
structure Primitive where
  kind : PrimitiveKind
  scizzor : Rect
  rect : Rect
deriving DecidableEq, Repr

/-- The per-widget render data read by `Primitives::draw`: the bounding
rectangle, the kid-area rectangle, the crop-children flag, and the
primitive the widget's kind/state would emit (`none` when the state
downcast yields nothing). -/
structure RContainer where
  rect : Rect
  kid_area_rect : Rect
  crop_kids : Bool
  shape : Option PrimitiveKind
deriving DecidableEq, Repr

/-- The graph context of `Primitives::draw`.  `widget` is
`graph.widget(node_index)`; `does_recursive_depth_edge_exist` and
`cropped_area_of_widget` are modelled from the spec — they live in the
`graph::algo` module outside the core sources — as the depth-wise
ancestor test driving the crop-stack pops and the widget's visible area
under all ancestor crop rectangles. -/
structure RGraph where
  widget : Nat → Option RContainer
  does_recursive_depth_edge_exist : Nat → Nat → Bool
  cropped_area_of_widget : Nat → Option Rect

/-- Pop crop contexts whose owner is not a depth-wise ancestor of the
current widget (the inner `while` of `Primitives::draw`; the head of the
list is the top of the stack). -/
def popCrops (g : RGraph) (idx : Nat) :
    List (Nat × Rect) → List (Nat × Rect)
  | [] => []
  | (p, sz) :: rest =>
    if g.does_recursive_depth_edge_exist p idx then (p, sz) :: rest
    else popCrops g idx rest

/-- The scissor rectangle for the current widget: the top of the crop
stack, or the whole window. -/
def scizzorOf (window : Rect) (stack : List (Nat × Rect)) : Rect :=
  ((stack.head?).map Prod.snd).getD window

/-- Push the widget's kid area (cropped to the current scissor, or the
degenerate zero rectangle) when the widget crops its children. -/
def pushCrop (idx : Nat) (c : RContainer) (scizzor : Rect)
    (stack : List (Nat × Rect)) : List (Nat × Rect) :=
  if c.crop_kids then
    (idx, (c.kid_area_rect.overlap scizzor).getD ⟨0, 0, 0, 0⟩) :: stack
  else stack

/-- What the widget's kind/state emits once it is known to be visible
(the big `match container.kind` of `Primitives::draw`, collapsed to the
modelled payload). -/
def drawWidget (c : RContainer) (scizzor : Rect) : List Primitive :=
  match c.shape with
  | some k => [⟨k, scizzor, c.rect⟩]
  | none => []

/-- One iteration of the `Primitives::draw` loop: skip unknown indices,
maintain the crop stack, and emit the widget's primitives only when
`is_visible` holds — the bounding rectangle overlaps the window AND the
cropped area is non-empty.  Returns the updated crop stack and the
primitives handed to `draw_primitive` for this widget. -/
def drawStep (g : RGraph) (window : Rect) (idx : Nat)
    (stack : List (Nat × Rect)) : List (Nat × Rect) × List Primitive :=
  match g.widget idx with
  | none => (stack, [])
  | some c =>
    if (c.rect.overlap window).isSome ∧ (g.cropped_area_of_widget idx).isSome then
      (pushCrop idx c (scizzorOf window (popCrops g idx stack))
        (popCrops g idx stack),
       drawWidget c (scizzorOf window (popCrops g idx stack)))
    else
      (pushCrop idx c (scizzorOf window (popCrops g idx stack))
        (popCrops g idx stack), [])

/-- The whole `Primitives::draw` loop over the depth order. -/
def drawAll (g : RGraph) (window : Rect) :
    List Nat → List (Nat × Rect) → List Primitive
  | [], _ => []
  | idx :: rest, stack =>
    (drawStep g window idx stack).2 ++
      drawAll g window rest (drawStep g window idx stack).1

/-- Claim C8: a widget whose bounding rectangle does not overlap the
window, or whose visible area under the accumulated ancestor crops is
empty, contributes zero primitives: its loop iteration emits nothing, and
the whole extraction run over any depth order behaves as if the widget
only maintained the crop stack. -/
theorem claim_C8 (g : RGraph) (window : Rect) (idx : Nat)
    (stack : List (Nat × Rect))
    (h : ∀ c, g.widget idx = some c →
      c.rect.overlap window = none ∨ g.cropped_area_of_widget idx = none) :
    (drawStep g window idx stack).2 = [] ∧
    ∀ rest, drawAll g window (idx :: rest) stack =
      drawAll g window rest (drawStep g window idx stack).1 := by
  have h2 : (drawStep g window idx stack).2 = [] := by
    unfold drawStep
    cases hw : g.widget idx with
    | none => rfl
    | some c =>
      have hcond : ¬((c.rect.overlap window).isSome = true ∧
          (g.cropped_area_of_widget idx).isSome = true) := by
        rintro ⟨h1, hcr⟩
        rcases h c hw with hov | hcv
        · rw [hov] at h1
          cases h1
        · rw [hcv] at hcr
          cases hcr
      simp only [if_neg hcond]
  refine ⟨h2, fun rest => ?_⟩
  rw [drawAll, h2, List.nil_append]

/-- A window and a single fully-cropped widget: node 1 carries a
rectangle primitive but its cropped area is empty. -/
def c8win : Rect := ⟨0, 100, 0, 100⟩

def c8off : RContainer :=
  { rect := ⟨10, 20, 10, 20⟩, kid_area_rect := ⟨10, 20, 10, 20⟩,
    crop_kids := false, shape := some PrimitiveKind.Rectangle }

def c8G : RGraph :=
  { widget := fun i => if i = 1 then some c8off else none,
    does_recursive_depth_edge_exist := fun _ _ => false,
    cropped_area_of_widget := fun _ => none }

theorem claim_C8_witness :
    (drawStep c8G c8win 1 []).2 = [] ∧
    ∀ rest, drawAll c8G c8win (1 :: rest) [] =
      drawAll c8G c8win rest (drawStep c8G c8win 1 []).1 :=
  claim_C8 c8G c8win 1 [] (fun _ _ => Or.inr rfl)

/-! ### Claim C9: NaN depths are exactly what makes the depth-order
recomputation panic -/

/-- The per-node no-NaN-depth check: a widget node carries a `some`
depth. -/
def nodeDepthOk : Node → Bool
  | Node.Widget c => c.depth.isSome
  | _ => true

/-- Insertion succeeds whenever every comparison it can make succeeds. -/
theorem insertBack_total {cmp : Nat → Nat → Option Ordering} {x : Nat} :
    ∀ {rev : List Nat}, (∀ z ∈ rev, (cmp x z).isSome = true) →
      ∃ out, insertBack cmp x rev = some out := by
  intro rev
  induction rev with
  | nil =>
    intro _
    exact ⟨[x], rfl⟩
  | cons z zs ih =>
    intro hc
    have hz := hc z (List.mem_cons_self _ _)
    cases ho : cmp x z with
    | none =>
      rw [ho] at hz
      cases hz
    | some o =>
      cases o with
      | lt =>
        obtain ⟨out, hout⟩ :=
          ih (fun w hw => hc w (List.mem_cons_of_mem _ hw))
        exact ⟨z :: out, by rw [insertBack, ho, hout]; rfl⟩
      | eq => exact ⟨x :: z :: zs, by rw [insertBack, ho]⟩
      | gt => exact ⟨x :: z :: zs, by rw [insertBack, ho]⟩

/-- The sort driver succeeds whenever the comparator succeeds on all pairs
drawn from a superset of the inputs. -/
theorem sortGo_total {cmp : Nat → Nat → Option Ordering} {l0 : List Nat}
    (hc : ∀ x ∈ l0, ∀ z ∈ l0, (cmp x z).isSome = true) :
    ∀ l rev, (∀ x ∈ l, x ∈ l0) → (∀ z ∈ rev, z ∈ l0) →
      ∃ out, sortGo cmp l rev = some out := by
  intro l
  induction l with
  | nil =>
    intro rev _ _
    exact ⟨rev.reverse, rfl⟩
  | cons x xs ih =>
    intro rev hl hrev
    have hx : x ∈ l0 := hl x (List.mem_cons_self _ _)
    obtain ⟨rev', hins⟩ :=
      insertBack_total (fun z hz => hc x hx z (hrev z hz))
    have hrev' : ∀ z ∈ rev', z ∈ l0 := by
      intro z hz
      rcases List.mem_cons.mp ((insertBack_perm hins).subset hz) with rfl | hz'
      · exact hx
      · exact hrev z hz'
    obtain ⟨out, hout⟩ :=
      ih rev' (fun w hw => hl w (List.mem_cons_of_mem _ hw)) hrev'
    refine ⟨out, ?_⟩
    rw [sortGo, hins]
    exact hout

/-- `sort_by` never panics when the comparator never panics on the
input. -/
theorem sortRust_total {cmp : Nat → Nat → Option Ordering} {l : List Nat}
    (hc : ∀ x ∈ l, ∀ z ∈ l, (cmp x z).isSome = true) :
    ∃ out, sortRust cmp l = some out := by
  obtain ⟨out, hout⟩ :=
    sortGo_total hc l [] (fun x hx => hx) (fun z hz => nomatch hz)
  exact ⟨out, hout⟩

/-- The child comparator never panics on valid node indices when no
cached widget depth is NaN. -/
theorem childCmp_total {g : Graph} {mc mk : Option Nat} {a b : Nat}
    (ha : a < g.nodes.length) (hb : b < g.nodes.length)
    (hD : ∀ c, Node.Widget c ∈ g.nodes → c.depth.isSome = true) :
    (childCmp g mc mk a b).isSome = true := by
  unfold childCmp
  split
  · rfl
  · obtain ⟨na, hna⟩ : ∃ na, g.nodes.get? a = some na :=
      ⟨_, List.get?_eq_get ha⟩
    obtain ⟨nb, hnb⟩ : ∃ nb, g.nodes.get? b = some nb :=
      ⟨_, List.get?_eq_get hb⟩
    rw [hna, hnb]
    cases na with
    | Widget ca =>
      cases nb with
      | Widget cb =>
        rcases Option.isSome_iff_exists.mp (hD ca (List.get?_mem hna))
          with ⟨da, hda⟩
        rcases Option.isSome_iff_exists.mp (hD cb (List.get?_mem hnb))
          with ⟨db, hdb⟩
        simp [pcmpQ, hda, hdb]
      | Root => rfl
      | Placeholder => rfl
    | Root => cases nb <;> rfl
    | Placeholder => cases nb <;> rfl

/-- The floating comparator never panics on floating widgets. -/
theorem floatCmp_total {g : Graph} {x z : Nat}
    (hx : maybeIsFloatingB g x = some true)
    (hz : maybeIsFloatingB g z = some true) :
    (floatCmp g x z).isSome = true := by
  rw [floatCmp_key hx hz]
  rfl

/-- A floating widget's node index is in range. -/
theorem floating_valid {g : Graph} {q : Nat}
    (h : maybeIsFloatingB g q = some true) : q < g.nodes.length := by
  unfold maybeIsFloatingB at h
  split at h
  · rename_i c hg
    exact (List.get?_eq_some.mp hg).1
  · cases h

/-- With in-range edges and no NaN depth anywhere, neither visiting
function can ever panic. -/
theorem visit_total (g : Graph) (mc mk : Option Nat)
    (hE : ∀ e ∈ g.edges, e.tgt < g.nodes.length)
    (hD : ∀ c, Node.Widget c ∈ g.nodes → c.depth.isSome = true) :
    ∀ fuel : Nat,
      (∀ idx O FQ, idx < g.nodes.length →
        visitByDepth g mc mk fuel idx O FQ ≠ Res.panicked) ∧
      (∀ kids O FQ, (∀ k ∈ kids, k < g.nodes.length) →
        visitKids g mc mk fuel kids O FQ ≠ Res.panicked) := by
  intro fuel
  induction fuel with
  | zero =>
    constructor
    · intro idx O FQ _ heq
      rw [visitByDepth] at heq
      cases heq
    · intro kids O FQ _ heq
      rw [visitKids] at heq
      cases heq
  | succ fuel ih =>
    have hkids : ∀ idx, ∀ x ∈ neighborsOut g idx, x < g.nodes.length := by
      intro idx x hx
      obtain ⟨e, he, -, htgt⟩ := mem_neighborsOut hx
      exact htgt ▸ hE e he
    constructor
    · intro idx O FQ hlt heq
      rw [visitByDepth] at heq
      split at heq
      · rename_i hget
        rw [List.get?_eq_none] at hget
        omega
      · cases heq
      · rename_i c hget
        by_cases hupd : c.is_updated = true
        · rw [if_pos hupd] at heq
          split at heq
          · rename_i hnone
            obtain ⟨kids, hsort⟩ := sortRust_total
              (fun x hx z hz =>
                childCmp_total (hkids idx x hx) (hkids idx z hz) hD)
            cases hsort.symm.trans hnone
          · rename_i kids hsort
            have hkv : ∀ k ∈ kids, k < g.nodes.length :=
              fun k hk => hkids idx k ((sortRust_perm hsort).subset hk)
            cases hv : visitKids g mc mk fuel kids
                (O ++ [Visitable.Widget idx]) FQ with
            | ok pr =>
              rw [hv] at heq
              obtain ⟨d2, f2⟩ := pr
              cases hb : c.maybe_scrolling.isSome <;> simp [hb] at heq
            | panicked =>
              exact ih.2 kids _ FQ hkv hv
            | fuelOut =>
              rw [hv] at heq
              cases heq
        · rw [if_neg hupd] at heq
          cases heq
      · rename_i hget
        split at heq
        · rename_i hnone
          obtain ⟨kids, hsort⟩ := sortRust_total
            (fun x hx z hz =>
              childCmp_total (hkids idx x hx) (hkids idx z hz) hD)
          cases hsort.symm.trans hnone
        · rename_i kids hsort
          exact ih.2 kids O FQ
            (fun k hk => hkids idx k ((sortRust_perm hsort).subset hk)) heq
    · intro kids O FQ hval heq
      cases kids with
      | nil =>
        rw [visitKids] at heq
        cases heq
      | cons c cs =>
        rw [visitKids] at heq
        split at heq
        · exact ih.2 cs O (FQ ++ [c])
            (fun k hk => hval k (List.mem_cons_of_mem _ hk)) heq
        · cases hv : visitByDepth g mc mk fuel c O FQ with
          | ok pr =>
            rw [hv] at heq
            obtain ⟨d2, f2⟩ := pr
            exact ih.2 cs d2 f2
              (fun k hk => hval k (List.mem_cons_of_mem _ hk)) heq
          | panicked =>
            exact ih.1 c O FQ (hval c (List.mem_cons_self _ _)) hv
          | fuelOut =>
            rw [hv] at heq
            cases heq

/-- Draining an in-range floating deque never panics. -/
theorem drain_total (g : Graph) (mc mk : Option Nat)
    (hE : ∀ e ∈ g.edges, e.tgt < g.nodes.length)
    (hD : ∀ c, Node.Widget c ∈ g.nodes → c.depth.isSome = true) :
    ∀ fuel FQ O, (∀ q ∈ FQ, q < g.nodes.length) →
      drainFloats g mc mk fuel FQ O ≠ Res.panicked := by
  intro fuel
  induction fuel with
  | zero =>
    intro FQ O _ heq
    rw [drainFloats] at heq
    cases heq
  | succ fuel ih =>
    intro FQ O hval heq
    cases FQ with
    | nil =>
      rw [drainFloats] at heq
      cases heq
    | cons q rest =>
      rw [drainFloats] at heq
      cases hv : visitByDepth g mc mk (fuel + 1) q O rest with
      | ok pr =>
        obtain ⟨d2, f2⟩ := pr
        rw [hv] at heq
        obtain ⟨Δ, Φ, -, hf2, -, hfl, -⟩ :=
          (visit_shape g mc mk (fuel + 1)).1 q O rest d2 f2 hv
        refine ih f2 d2 ?_ heq
        intro q' hq'
        rw [hf2] at hq'
        rcases List.mem_append.mp hq' with h | h
        · exact hval q' (List.mem_cons_of_mem _ h)
        · exact floating_valid (hfl q' h)
      | panicked =>
        exact (visit_total g mc mk hE hD (fuel + 1)).1 q O rest
          (hval q (List.mem_cons_self _ _)) hv
      | fuelOut =>
        rw [hv] at heq
        cases heq

/-- Claim C9: the NaN-depth panic.  (i) The child comparator panics
whenever it reaches the depth comparison of two widget siblings one of
whose cached depths is NaN and the first of which is uncaptured; (ii) a
panicking child sort at the root makes the whole depth-order
recomputation panic; (iii) conversely, with in-range edges and root and
no NaN cached depth, the recomputation never panics at any fuel. -/
theorem claim_C9 (g : Graph) (mc mk : Option Nat) :
    (∀ a b ca cb, mc ≠ some a → mk ≠ some a →
      g.nodes.get? a = some (Node.Widget ca) →
      g.nodes.get? b = some (Node.Widget cb) →
      (ca.depth = none ∨ cb.depth = none) →
      childCmp g mc mk a b = none) ∧
    (∀ fuel, g.nodes.get? g.root = some Node.Root →
      sortRust (childCmp g mc mk) (neighborsOut g g.root) = none →
      updateDepthOrder g mc mk (fuel + 1) = Res.panicked) ∧
    (g.root < g.nodes.length →
      (∀ e ∈ g.edges, e.tgt < g.nodes.length) →
      (∀ nd ∈ g.nodes, nodeDepthOk nd = true) →
      ∀ fuel, updateDepthOrder g mc mk fuel ≠ Res.panicked) := by
  refine ⟨?_, ?_, ?_⟩
  · intro a b ca cb hmc hmk hga hgb hdep
    unfold childCmp
    rw [if_neg]
    · rw [hga, hgb]
      show pcmpQ cb.depth ca.depth = none
      rcases hdep with h | h
      · rw [h]
        unfold pcmpQ
        cases cb.depth <;> rfl
      · rw [h]
        rfl
    · simp only [Bool.or_eq_true, beq_iff_eq, not_or]
      exact ⟨hmc, hmk⟩
  · intro fuel hr hs
    unfold updateDepthOrder
    rw [visitByDepth]
    simp only [hr, hs]
  · intro hroot hE hD0 fuel heq
    have hD : ∀ c, Node.Widget c ∈ g.nodes → c.depth.isSome = true :=
      fun c hc => hD0 (Node.Widget c) hc
    unfold updateDepthOrder at heq
    cases hv : visitByDepth g mc mk fuel g.root [] [] with
    | ok pr =>
      obtain ⟨d, f⟩ := pr
      rw [hv] at heq
      obtain ⟨Δ, Φ, -, hf, -, hfl, -⟩ :=
        (visit_shape g mc mk fuel).1 g.root [] [] d f hv
      rw [List.nil_append] at hf
      subst hf
      obtain ⟨sf, hsort⟩ := sortRust_total
        (fun x hx z hz => floatCmp_total (hfl x hx) (hfl z hz))
      simp only [hsort] at heq
      refine drain_total g mc mk hE hD fuel sf d ?_ heq
      intro q hq
      exact floating_valid (hfl q ((sortRust_perm hsort).subset hq))
    | panicked =>
      exact (visit_total g mc mk hE hD fuel).1 g.root [] [] hroot hv
    | fuelOut =>
      rw [hv] at heq
      cases heq

/-- Root with two updated widget children, the first of which has a NaN
(`none`) cached depth. -/
def c9g : Graph :=
  { nodes := [Node.Root, Node.Widget (exContainer none none none true),
              Node.Widget (exContainer (some 1) none none true)],
    edges := [⟨0, 1, EdgeKind.Child⟩, ⟨0, 2, EdgeKind.Child⟩],
    index_map := [], root := 0 }

theorem claim_C9_witness :
    updateDepthOrder c9g none none 9 = Res.panicked ∧
    updateDepthOrder c1g none none 5 ≠ Res.panicked :=
  ⟨(claim_C9 c9g none none).2.1 8 (by decide) (by decide),
   (claim_C9 c1g none none).2.2 (by decide) (by decide) (by decide) 5⟩

theorem claim_C5_witness :
    ∃ p1, [Visitable.Widget 1, Visitable.Widget 3,
        Visitable.Widget 2].get? p1 = some (Visitable.Widget 3) ∧
      ∀ p2, [Visitable.Widget 1, Visitable.Widget 3,
          Visitable.Widget 2].get? p2 = some (Visitable.Widget 2) → p1 < p2 :=
  (claim_C5 c5g none none 9
      [Visitable.Widget 1, Visitable.Widget 3, Visitable.Widget 2]
      [Visitable.Widget 1] [2, 3] [3, 2]
      (by decide) (by decide) (by decide) (by decide) (by decide)).2.2.2.2.2
    0 1 3 2 (exContainer (some 0) (some ⟨3⟩) none true)
    (by decide) (by decide) (by decide) (by decide) (by decide)

end Conrod
